import Mathlib

/-!
# Verification of the Dual-Mixer C-MAPSS data pipeline and model library

Shallow embedding of the data-handling functions in `dataset/cmapss.py`
(RUL labeling, train/validation splitting, windowing, the two negative
samplers) and of the hand-rolled recurrent cell in
`models/RULPrediction/SimpleModels.py`, together with theorems settling
the specification claims about them.

Conventions used throughout.  Pandas frames are lists of records; a
`groupby` over `unit_nr` is modeled as the ascending list of distinct
engine ids paired with the order-preserving filter of the frame, which
matches the pandas default of sorted group keys.  Numeric scalars are
rationals.  Numpy and pandas calls that raise are modeled with `Option`:
`none` is a raised exception.  Randomness (the numpy global generator)
is modeled by passing the drawn values as explicit arguments, with
validity of the draw stated as a hypothesis where a theorem needs it.
-/

namespace DualMixer

/-- Maximum of a nonempty list of rationals; models a pandas `max()`
over a (nonempty) group.  The empty case never arises for groups and is
given the junk value 0. -/
def listMax : List ℚ → ℚ
  | [] => 0
  | x :: xs => xs.foldl max x

/-- The ascending list of distinct engine ids occurring in `l`; models
the (sorted, default) group keys of `df.groupby(by="unit_nr")` as well
as `np.unique`. -/
def sortedIds (l : List ℕ) : List ℕ :=
  l.dedup.insertionSort (· ≤ ·)

/-- One row of a raw C-MAPSS frame, restricted to the columns that the
labeling step reads and writes (`unit_nr`, `time_cycles`); the sensor
and setting columns are carried through `generate_rul` untouched and are
irrelevant to the labeling claims. -/
structure RawRecord where
  unit_nr : ℕ
  time_cycles : ℚ
deriving DecidableEq, Repr

/-- One row of the labeled frame returned by `generate_rul`: the raw
columns plus the joined `max_cycles` column and the computed `rul`
column. -/
structure LabeledRecord where
  unit_nr : ℕ
  time_cycles : ℚ
  max_cycles : ℚ
  rul : ℚ
deriving DecidableEq, Repr

/-- The `time_cycles` values of engine `id` in frame `df` (one pandas
group of the `groupby`). -/
def engineCycles (df : List RawRecord) (id : ℕ) : List ℚ :=
  (df.filter (fun r => r.unit_nr = id)).map (·.time_cycles)

/-- The test-mode contribution to an engine's maximum life: the row of
the parsed RUL frame positionally aligned to the engine's rank among
the ascending group keys (`y_test.index = RUL_max.index`), or 0 in
train mode. -/
def yContrib (df : List RawRecord) (yTest : Option (List ℚ)) (id : ℕ) : ℚ :=
  match yTest with
  | none => 0
  | some ys => ys.getD ((sortedIds (df.map (·.unit_nr))).findIdx (· = id)) 0

/-- `grouped["time_cycles"].max()` for engine `id`, plus - in test mode -
the externally supplied remaining life for that engine
(`RUL_max + y_test[...]`). -/
def rulMax (df : List RawRecord) (yTest : Option (List ℚ)) (id : ℕ) : ℚ :=
  listMax (engineCycles df id) + yContrib df yTest id

/-- Embedding of `generate_rul(df, y_test, normalize, threshold)` from
`dataset/cmapss.py`.  Groups by `unit_nr`, takes the per-engine maximum
cycle (plus the positional `y_test` remainder in test mode), merges it
back onto every record (an inner merge on the grouping key preserves the
row order of the left frame), sets `rul = max_cycles - time_cycles`,
then applies the optional clip and the optional normalization (the two
steps below).  Returns `none` when `y_test` is present with a length
different from the number of engines, where the pandas index assignment
raises.  This definition is the merge step; `generate_rul` below chains
the three steps. -/
def rulMerged (df : List RawRecord) (yTest : Option (List ℚ)) :
    List LabeledRecord :=
  df.map (fun r =>
    let m := rulMax df yTest r.unit_nr
    LabeledRecord.mk r.unit_nr r.time_cycles m (m - r.time_cycles))

/-- The clipping step of `generate_rul`: when `0 < threshold`, rows with
`rul` above the threshold are set to the threshold and rows whose
`max_cycles` exceeds the threshold get `max_cycles := threshold + 1`. -/
def rulClipped (threshold : ℚ) (merged : List LabeledRecord) :
    List LabeledRecord :=
  if 0 < threshold then
    merged.map (fun r =>
      { r with
        rul := if threshold < r.rul then threshold else r.rul,
        max_cycles := if threshold < r.max_cycles then threshold + 1
                      else r.max_cycles })
  else merged

/-- The normalization step of `generate_rul`: when `normalize` is set,
`rul := (rul + 1) / max_cycles` on every row (after clipping). -/
def rulNormed (normalize : Bool) (clipped : List LabeledRecord) :
    List LabeledRecord :=
  if normalize then
    clipped.map (fun r => { r with rul := (r.rul + 1) / r.max_cycles })
  else clipped

/-- Embedding of `generate_rul(df, y_test, normalize, threshold)` from
`dataset/cmapss.py`: merge the per-engine maximum cycle (plus the
positional `y_test` remainder in test mode) onto every row and set
`rul = max_cycles - time_cycles` (`rulMerged`), clip (`rulClipped`),
normalize (`rulNormed`).  An inner merge on the grouping key preserves
the row order of the left frame, so the output rows parallel `df`.
`none` models the pandas raise when `y_test` has the wrong length. -/
def generate_rul (df : List RawRecord) (yTest : Option (List ℚ))
    (normalize : Bool) (threshold : ℚ) : Option (List LabeledRecord) :=
  match yTest with
  | none => some (rulNormed normalize (rulClipped threshold (rulMerged df none)))
  | some ys =>
    if ys.length = (sortedIds (df.map (·.unit_nr))).length then
      some (rulNormed normalize (rulClipped threshold (rulMerged df (some ys))))
    else none

theorem le_foldl_max (l : List ℚ) (a : ℚ) : a ≤ l.foldl max a := by
  induction l generalizing a with
  | nil => exact le_refl a
  | cons y ys ih => exact le_trans (le_max_left a y) (ih (max a y))

theorem mem_le_foldl_max {l : List ℚ} {x : ℚ} (hx : x ∈ l) (a : ℚ) :
    x ≤ l.foldl max a := by
  induction l generalizing a with
  | nil => cases hx
  | cons y ys ih =>
    rcases List.mem_cons.mp hx with h | h
    · subst h; exact le_trans (le_max_right a x) (le_foldl_max ys (max a x))
    · exact ih h (max a y)

/-- Every record placed in a group by the `groupby` has its own
`time_cycles` bounded by the group maximum. -/
theorem le_listMax_of_mem {l : List ℚ} {x : ℚ} (hx : x ∈ l) : x ≤ listMax l := by
  match l with
  | [] => cases hx
  | y :: ys =>
    simp only [listMax]
    rcases List.mem_cons.mp hx with h | h
    · subst h; exact le_foldl_max ys x
    · exact mem_le_foldl_max h y

theorem rulClipped_zero (l : List LabeledRecord) : rulClipped 0 l = l :=
  if_neg (lt_irrefl 0)

theorem rulNormed_false (l : List LabeledRecord) : rulNormed false l = l :=
  rfl

/-- When `generate_rul` returns at all, its output is the three-step
pipeline applied to the input frame. -/
theorem generate_rul_eq_pipeline (df : List RawRecord)
    (yTest : Option (List ℚ)) (normalize : Bool) (threshold : ℚ)
    (out : List LabeledRecord)
    (h : generate_rul df yTest normalize threshold = some out) :
    out = rulNormed normalize (rulClipped threshold (rulMerged df yTest)) := by
  cases yTest with
  | none =>
    simp only [generate_rul, Option.some.injEq] at h
    exact h.symm
  | some ys =>
    simp only [generate_rul] at h
    by_cases hlen : ys.length = (sortedIds (df.map (·.unit_nr))).length
    · rw [if_pos hlen, Option.some.injEq] at h
      exact h.symm
    · rw [if_neg hlen] at h
      cases h

/-- With no clipping and no normalization, `generate_rul` returns the
plain merged frame. -/
theorem generate_rul_none_eq (df : List RawRecord) (yTest : Option (List ℚ))
    (out : List LabeledRecord) (h : generate_rul df yTest false 0 = some out) :
    out = rulMerged df yTest := by
  rw [generate_rul_eq_pipeline df yTest false 0 out h, rulClipped_zero,
    rulNormed_false]

/-- C5: with `clip_threshold = 0` and `normalize = false`, every output
record of `generate_rul` satisfies `rul + time_cycles = max_cycles`, and
`max_cycles` is the maximum observed cycle of the record's engine plus -
in test mode - the externally supplied remaining life positionally
aligned to that engine (this is exactly `rulMax`). -/
theorem generate_rul_no_clip_invariant (df : List RawRecord)
    (yTest : Option (List ℚ)) (out : List LabeledRecord)
    (h : generate_rul df yTest false 0 = some out) :
    ∀ r ∈ out, r.rul + r.time_cycles = r.max_cycles ∧
      r.max_cycles = rulMax df yTest r.unit_nr := by
  rw [generate_rul_none_eq df yTest out h]
  intro r hr
  rw [rulMerged, List.mem_map] at hr
  obtain ⟨d, _, rfl⟩ := hr
  exact ⟨by ring, rfl⟩

/-- Concrete instance of C5: a two-engine frame in test mode. -/
theorem generate_rul_no_clip_invariant_witness :
    generate_rul [⟨1, 1⟩, ⟨1, 2⟩, ⟨2, 1⟩] (some [10, 20]) false 0 =
      some [⟨1, 1, 12, 11⟩, ⟨1, 2, 12, 10⟩, ⟨2, 1, 21, 20⟩] ∧
    ∀ r ∈ [(⟨1, 1, 12, 11⟩ : LabeledRecord), ⟨1, 2, 12, 10⟩, ⟨2, 1, 21, 20⟩],
      r.rul + r.time_cycles = r.max_cycles ∧
      r.max_cycles = rulMax [⟨1, 1⟩, ⟨1, 2⟩, ⟨2, 1⟩] (some [10, 20]) r.unit_nr := by
  have h : generate_rul [⟨1, 1⟩, ⟨1, 2⟩, ⟨2, 1⟩] (some [10, 20]) false 0 =
      some [⟨1, 1, 12, 11⟩, ⟨1, 2, 12, 10⟩, ⟨2, 1, 21, 20⟩] := by
    norm_num [generate_rul, rulNormed, rulClipped, rulMerged, rulMax, yContrib,
      engineCycles, sortedIds, listMax, List.dedup, List.insertionSort,
      List.findIdx, List.findIdx.go, LabeledRecord.mk.injEq]
  exact ⟨h, generate_rul_no_clip_invariant _ _ _ h⟩

/-- The per-engine maximum (plus a nonnegative test remainder) bounds
each record's own cycle index. -/
theorem time_le_rulMax (df : List RawRecord) (yTest : Option (List ℚ))
    (hy : ∀ q ∈ yTest.getD [], 0 ≤ q) {d : RawRecord} (hd : d ∈ df) :
    d.time_cycles ≤ rulMax df yTest d.unit_nr := by
  have hmem : d.time_cycles ∈ engineCycles df d.unit_nr := by
    rw [engineCycles]
    exact List.mem_map_of_mem _ (List.mem_filter.mpr ⟨hd, by simp⟩)
  have h1 : d.time_cycles ≤ listMax (engineCycles df d.unit_nr) :=
    le_listMax_of_mem hmem
  have h2 : (0:ℚ) ≤ yContrib df yTest d.unit_nr := by
    cases yTest with
    | none => exact le_refl 0
    | some ys =>
      simp only [Option.getD] at hy
      simp only [yContrib]
      by_cases hlt :
          (sortedIds (df.map (·.unit_nr))).findIdx (· = d.unit_nr) < ys.length
      · rw [List.getD_eq_getElem _ _ hlt]
        exact hy _ (List.getElem_mem hlt)
      · rw [List.getD_eq_default _ _ (le_of_not_lt hlt)]
  rw [rulMax]
  linarith

/-- After the merge and the clip, every row of the labeled frame has a
nonnegative `rul`, satisfies `rul + 1 ≤ max_cycles`, and has a positive
`max_cycles` - provided cycle indices are at least 1 and test
remainders are nonnegative. -/
theorem rulClipped_bounds (df : List RawRecord) (yTest : Option (List ℚ))
    (threshold : ℚ) (hcyc : ∀ r ∈ df, 1 ≤ r.time_cycles)
    (hy : ∀ q ∈ yTest.getD [], 0 ≤ q) :
    ∀ r ∈ rulClipped threshold (rulMerged df yTest),
      0 ≤ r.rul ∧ r.rul + 1 ≤ r.max_cycles ∧ 0 < r.max_cycles := by
  have hbase : ∀ r ∈ rulMerged df yTest,
      0 ≤ r.rul ∧ r.rul + 1 ≤ r.max_cycles ∧ 1 ≤ r.time_cycles ∧
        r.time_cycles ≤ r.max_cycles := by
    intro r hr
    rw [rulMerged, List.mem_map] at hr
    obtain ⟨d, hd, rfl⟩ := hr
    have h1 := hcyc d hd
    have h2 := time_le_rulMax df yTest hy hd
    dsimp only
    refine ⟨by linarith, by linarith, h1, h2⟩
  intro r hr
  rw [rulClipped] at hr
  by_cases hth : (0:ℚ) < threshold
  · rw [if_pos hth, List.mem_map] at hr
    obtain ⟨r0, hr0, rfl⟩ := hr
    obtain ⟨ha, hb, hc, hd⟩ := hbase r0 hr0
    dsimp only
    by_cases hm : threshold < r0.max_cycles
    · rw [if_pos hm]
      by_cases hrul : threshold < r0.rul
      · rw [if_pos hrul]
        exact ⟨le_of_lt hth, by linarith, by linarith⟩
      · rw [if_neg hrul]
        push_neg at hrul
        exact ⟨ha, by linarith, by linarith⟩
    · rw [if_neg hm]
      push_neg at hm
      have hrul : ¬ threshold < r0.rul := by push_neg; linarith
      rw [if_neg hrul]
      exact ⟨ha, hb, by linarith⟩
  · rw [if_neg hth] at hr
    obtain ⟨ha, hb, hc, hd⟩ := hbase r hr
    exact ⟨ha, hb, by linarith⟩

/-- C6: with `normalize = true`, `generate_rul` replaces each row's
`rul` with `(clipped_rul + 1) / max_cycles` - the clipped values being
the output of the same call with `normalize = false` - and, when cycle
indices are 1-based positive and test remainders nonnegative, every
resulting `rul` lies in the interval (0, 1]. -/
theorem generate_rul_normalized_bounds (df : List RawRecord)
    (yTest : Option (List ℚ)) (threshold : ℚ)
    (out1 out0 : List LabeledRecord)
    (hcyc : ∀ r ∈ df, 1 ≤ r.time_cycles)
    (hy : ∀ q ∈ yTest.getD [], 0 ≤ q)
    (h1 : generate_rul df yTest true threshold = some out1)
    (h0 : generate_rul df yTest false threshold = some out0) :
    out1.length = out0.length ∧
    ∀ (k : ℕ) (hk1 : k < out1.length) (hk0 : k < out0.length),
      (out1.get ⟨k, hk1⟩).rul =
        ((out0.get ⟨k, hk0⟩).rul + 1) / (out0.get ⟨k, hk0⟩).max_cycles ∧
      0 < (out1.get ⟨k, hk1⟩).rul ∧ (out1.get ⟨k, hk1⟩).rul ≤ 1 := by
  have e1 := generate_rul_eq_pipeline df yTest true threshold out1 h1
  have e0 := generate_rul_eq_pipeline df yTest false threshold out0 h0
  rw [rulNormed_false] at e0
  subst e0
  subst e1
  rw [rulNormed, if_pos rfl]
  constructor
  · exact List.length_map _ _
  · intro k hk1 hk0
    set r0 := (rulClipped threshold (rulMerged df yTest)).get ⟨k, hk0⟩ with hr0def
    have hmem : r0 ∈ rulClipped threshold (rulMerged df yTest) :=
      List.get_mem _ _ _
    obtain ⟨ha, hb, hc⟩ := rulClipped_bounds df yTest threshold hcyc hy r0 hmem
    have hcast : (List.map
        (fun r : LabeledRecord => { r with rul := (r.rul + 1) / r.max_cycles })
        (rulClipped threshold (rulMerged df yTest))).get ⟨k, hk1⟩ =
        { r0 with rul := (r0.rul + 1) / r0.max_cycles } := by
      rw [List.get_eq_getElem, List.getElem_map, hr0def, List.get_eq_getElem]
    rw [hcast]
    refine ⟨rfl, ?_, ?_⟩
    · exact div_pos (by linarith) hc
    · rw [div_le_one hc]
      linarith

/-- Concrete instance of C6: one engine of two cycles, clip threshold 1,
normalized labels 1 and 1/2. -/
theorem generate_rul_normalized_bounds_witness :
    (∀ r ∈ [(⟨1, 1⟩ : RawRecord), ⟨1, 2⟩], 1 ≤ r.time_cycles) ∧
    (generate_rul [⟨1, 1⟩, ⟨1, 2⟩] none true 1 =
      some [⟨1, 1, 2, 1⟩, ⟨1, 2, 2, 1/2⟩]) ∧
    ([(⟨1, 1, 2, 1⟩ : LabeledRecord), ⟨1, 2, 2, 1/2⟩].length =
      [(⟨1, 1, 2, 1⟩ : LabeledRecord), ⟨1, 2, 2, 0⟩].length ∧
    ∀ (k : ℕ) (hk1 : k < [(⟨1, 1, 2, 1⟩ : LabeledRecord), ⟨1, 2, 2, 1/2⟩].length)
      (hk0 : k < [(⟨1, 1, 2, 1⟩ : LabeledRecord), ⟨1, 2, 2, 0⟩].length),
      ([(⟨1, 1, 2, 1⟩ : LabeledRecord), ⟨1, 2, 2, 1/2⟩].get ⟨k, hk1⟩).rul =
        (([(⟨1, 1, 2, 1⟩ : LabeledRecord), ⟨1, 2, 2, 0⟩].get ⟨k, hk0⟩).rul + 1) /
          ([(⟨1, 1, 2, 1⟩ : LabeledRecord), ⟨1, 2, 2, 0⟩].get ⟨k, hk0⟩).max_cycles ∧
      0 < ([(⟨1, 1, 2, 1⟩ : LabeledRecord), ⟨1, 2, 2, 1/2⟩].get ⟨k, hk1⟩).rul ∧
      ([(⟨1, 1, 2, 1⟩ : LabeledRecord), ⟨1, 2, 2, 1/2⟩].get ⟨k, hk1⟩).rul ≤ 1) := by
  have hcyc : ∀ r ∈ [(⟨1, 1⟩ : RawRecord), ⟨1, 2⟩], 1 ≤ r.time_cycles := by
    intro r hr
    fin_cases hr <;> norm_num
  have h1 : generate_rul [⟨1, 1⟩, ⟨1, 2⟩] none true 1 =
      some [⟨1, 1, 2, 1⟩, ⟨1, 2, 2, 1/2⟩] := by
    norm_num [generate_rul, rulNormed, rulClipped, rulMerged, rulMax, yContrib,
      engineCycles, listMax, LabeledRecord.mk.injEq]
  have h0 : generate_rul [⟨1, 1⟩, ⟨1, 2⟩] none false 1 =
      some [⟨1, 1, 2, 1⟩, ⟨1, 2, 2, 0⟩] := by
    norm_num [generate_rul, rulNormed, rulClipped, rulMerged, rulMax, yContrib,
      engineCycles, listMax, LabeledRecord.mk.injEq]
  exact ⟨hcyc, h1, generate_rul_normalized_bounds _ _ _ _ _ hcyc (by simp) h1 h0⟩

/-! ## Train/validation splitting (`split_val_set`) -/

/-- The validation engine count `int(len(grouped) * val_size)` drawn by
`split_val_set`.  Python `int()` truncates toward zero, which for the
nonnegative products the pipeline produces is the floor. -/
def numValEngines (n : ℕ) (val_size : ℚ) : ℕ :=
  Int.toNat ⌊(n : ℚ) * val_size⌋

/-- Embedding of `split_val_set(train_set, val_size)` from
`dataset/cmapss.py`.  The random draw
`np.random.choice(range(1, len(grouped) + 1), int(len(grouped) * val_size),
replace=False)` is passed in explicitly as `val_index`; theorems
hypothesize that it is a valid draw of the size `numValEngines` the code
requests.  The loop `for i in range(1, len(grouped) + 1)` appends the
rows of engine `i` to the validation collection when `i` was drawn and
to the train collection otherwise; `pd.concat` on an empty collection
raises (`none`). -/
def split_val_set (train_set : List LabeledRecord) (val_index : List ℕ) :
    Option (List LabeledRecord × List LabeledRecord) :=
  let n := (sortedIds (train_set.map (·.unit_nr))).length
  let ks := (List.range n).map (· + 1)
  let trainParts := (ks.filter (fun i => ¬ i ∈ val_index)).map
    (fun i => train_set.filter (fun r => r.unit_nr = i))
  let valParts := (ks.filter (fun i => i ∈ val_index)).map
    (fun i => train_set.filter (fun r => r.unit_nr = i))
  if trainParts.isEmpty || valParts.isEmpty then none
  else some (trainParts.flatten, valParts.flatten)

/-- The number of distinct engine ids appearing in a frame (the length
of the sorted unique id list). -/
def distinctEngineCount (l : List LabeledRecord) : ℕ :=
  (sortedIds (l.map (·.unit_nr))).length

theorem sum_map_add_distrib (ks : List ℕ) (f g : ℕ → ℕ) :
    (ks.map (fun i => f i + g i)).sum = (ks.map f).sum + (ks.map g).sum := by
  induction ks with
  | nil => rfl
  | cons k ks ih => simp only [List.map_cons, List.sum_cons, ih]; ring

theorem sum_map_indicator (ks : List ℕ) (a : ℕ) :
    (ks.map (fun i => if a = i then 1 else 0)).sum = ks.count a := by
  induction ks with
  | nil => rfl
  | cons k ks ih =>
    simp only [List.map_cons, List.sum_cons, ih, List.count_cons]
    by_cases h : a = k
    · subst h; simp [Nat.add_comm]
    · simp [h, Ne.symm h]

/-- Splitting a frame into its per-engine groups loses no rows: the
group sizes over any duplicate-free id list covering the frame sum to
the frame's length. -/
theorem sum_group_lengths (recs : List LabeledRecord) (ks : List ℕ)
    (hnd : ks.Nodup) (hmem : ∀ r ∈ recs, r.unit_nr ∈ ks) :
    (ks.map (fun i => (recs.filter (fun r => r.unit_nr = i)).length)).sum =
      recs.length := by
  induction recs with
  | nil => simp
  | cons r rs ih =>
    have hr : r.unit_nr ∈ ks := hmem r (List.mem_cons_self r rs)
    have hrs : ∀ x ∈ rs, x.unit_nr ∈ ks := fun x hx =>
      hmem x (List.mem_cons_of_mem r hx)
    have hpt : ∀ i : ℕ, ((r :: rs).filter (fun x => x.unit_nr = i)).length =
        (if r.unit_nr = i then 1 else 0) +
          (rs.filter (fun x => x.unit_nr = i)).length := by
      intro i
      by_cases h : r.unit_nr = i <;> simp [List.filter_cons, h, Nat.add_comm]
    calc (ks.map (fun i => ((r :: rs).filter (fun x => x.unit_nr = i)).length)).sum
        = (ks.map (fun i => (if r.unit_nr = i then 1 else 0) +
            (rs.filter (fun x => x.unit_nr = i)).length)).sum := by
          exact congrArg List.sum (List.map_congr_left (fun i _ => hpt i))
      _ = (ks.map (fun i => if r.unit_nr = i then 1 else 0)).sum +
            (ks.map (fun i => (rs.filter (fun x => x.unit_nr = i)).length)).sum :=
          sum_map_add_distrib ks _ _
      _ = 1 + rs.length := by
          rw [sum_map_indicator, ih hrs, List.count_eq_one_of_mem hnd hr]
      _ = (r :: rs).length := by simp [Nat.add_comm]

theorem mem_sortedIds {l : List ℕ} {a : ℕ} : a ∈ sortedIds l ↔ a ∈ l := by
  rw [sortedIds, (List.perm_insertionSort (· ≤ ·) l.dedup).mem_iff, List.mem_dedup]

theorem mem_oneToN {N i : ℕ} : i ∈ (List.range N).map (· + 1) ↔ 1 ≤ i ∧ i ≤ N := by
  simp only [List.mem_map, List.mem_range]
  constructor
  · rintro ⟨j, hj, rfl⟩; omega
  · rintro ⟨h1, h2⟩; exact ⟨i - 1, by omega, by omega⟩

theorem nodup_oneToN (N : ℕ) : ((List.range N).map (· + 1)).Nodup :=
  (List.nodup_range N).map (fun a b h => by omega)

/-- Membership in one side of the split: a record lands in the
collection built from id list `is` exactly when its engine id is in `is`
and it is a record of the frame. -/
theorem mem_parts_flatten (recs : List LabeledRecord) (is : List ℕ)
    (r : LabeledRecord) :
    r ∈ (is.map (fun i => recs.filter (fun x => x.unit_nr = i))).flatten ↔
      r.unit_nr ∈ is ∧ r ∈ recs := by
  rw [List.mem_flatten]
  constructor
  · rintro ⟨part, hpart, hr⟩
    rw [List.mem_map] at hpart
    obtain ⟨i, hi, rfl⟩ := hpart
    rw [List.mem_filter] at hr
    have : r.unit_nr = i := by simpa using hr.2
    exact ⟨this ▸ hi, hr.1⟩
  · rintro ⟨hu, hr⟩
    refine ⟨recs.filter (fun x => x.unit_nr = r.unit_nr),
      List.mem_map_of_mem _ hu, ?_⟩
    rw [List.mem_filter]
    exact ⟨hr, by simp⟩

theorem sum_filter_not_split (ks : List ℕ) (p : ℕ → Bool) (f : ℕ → ℕ) :
    ((ks.filter (fun i => !(p i))).map f).sum +
      ((ks.filter p).map f).sum = (ks.map f).sum := by
  induction ks with
  | nil => rfl
  | cons k ks ih =>
    cases hp : p k <;> simp [List.filter_cons, hp] <;> omega

/-- A successful `split_val_set` call returns exactly the two flattened
side collections. -/
theorem split_val_set_eq_some (df : List LabeledRecord) (val_index : List ℕ)
    (tr va : List LabeledRecord)
    (h : split_val_set df val_index = some (tr, va)) :
    tr = (((((List.range (sortedIds (df.map (·.unit_nr))).length).map (· + 1)).filter
            (fun i => ¬ i ∈ val_index)).map
          (fun i => df.filter (fun r => r.unit_nr = i))).flatten) ∧
    va = (((((List.range (sortedIds (df.map (·.unit_nr))).length).map (· + 1)).filter
            (fun i => i ∈ val_index)).map
          (fun i => df.filter (fun r => r.unit_nr = i))).flatten) := by
  simp only [split_val_set] at h
  split at h
  · cases h
  · rw [Option.some.injEq, Prod.mk.injEq] at h
    exact ⟨h.1.symm, h.2.symm⟩

/-- When either per-engine side collection is empty, `split_val_set`
models the `pd.concat` raise with `none`. -/
theorem split_val_set_none_of_filter_nil (df : List LabeledRecord)
    (val_index : List ℕ)
    (h : (((List.range (sortedIds (df.map (·.unit_nr))).length).map (· + 1)).filter
            (fun i => ¬ i ∈ val_index)) = [] ∨
         (((List.range (sortedIds (df.map (·.unit_nr))).length).map (· + 1)).filter
            (fun i => i ∈ val_index)) = []) :
    split_val_set df val_index = none := by
  simp only [split_val_set]
  rcases h with h | h <;> rw [h] <;> simp

/-- C10 (implicit): when the drawn validation engine count
`int(N * val_size)` is 0 or N, one of the two per-engine collections
stays empty and `pd.concat` raises instead of returning - so
`split_val_set` never returns an empty partition. -/
theorem split_val_set_empty_partition_raises (df : List LabeledRecord) (N : ℕ)
    (val_size : ℚ) (val_index : List ℕ)
    (hN : sortedIds (df.map (·.unit_nr)) = (List.range N).map (· + 1))
    (hnd : val_index.Nodup)
    (hlen : val_index.length = numValEngines N val_size)
    (hsub : ∀ i ∈ val_index, 1 ≤ i ∧ i ≤ N)
    (hk : numValEngines N val_size = 0 ∨ numValEngines N val_size = N) :
    split_val_set df val_index = none := by
  apply split_val_set_none_of_filter_nil
  rw [hN, List.length_map, List.length_range]
  rcases hk with hk | hk
  · have hnil : val_index = [] := List.eq_nil_of_length_eq_zero (by omega)
    subst hnil
    right
    simp
  · have hks : ((List.range N).map (· + 1)).Nodup := nodup_oneToN N
    have hsubF : val_index.toFinset ⊆ ((List.range N).map (· + 1)).toFinset := by
      intro a ha
      rw [List.mem_toFinset] at ha ⊢
      exact mem_oneToN.mpr (hsub a ha)
    have hcard : ((List.range N).map (· + 1)).toFinset.card ≤
        val_index.toFinset.card := by
      rw [List.toFinset_card_of_nodup hks, List.toFinset_card_of_nodup hnd,
        List.length_map, List.length_range]
      omega
    have hEq := Finset.eq_of_subset_of_card_le hsubF hcard
    have hcov : ∀ i ∈ (List.range N).map (· + 1), i ∈ val_index := by
      intro i hi
      have : i ∈ val_index.toFinset := by
        rw [hEq, List.mem_toFinset]; exact hi
      rwa [List.mem_toFinset] at this
    have hemptyT : (((List.range N).map (· + 1)).filter
        (fun i => ¬ i ∈ val_index)) = [] := by
      rw [List.filter_eq_nil_iff]
      intro i hi
      simpa using hcov i hi
    left
    exact hemptyT

/-- C4 (amended): on a train frame densely numbered 1..N, for any valid
draw of `int(N * val_size)` distinct engine ids (note: Python `int()`
truncation, not `round`), a returning `split_val_set` puts every record
in exactly one partition, preserves the total record count, puts no
engine id on both sides, and the validation partition holds exactly
`int(N * val_size)` distinct engines. -/
theorem split_val_set_partition (df : List LabeledRecord) (N : ℕ)
    (val_size : ℚ) (val_index : List ℕ) (tr va : List LabeledRecord)
    (hN : sortedIds (df.map (·.unit_nr)) = (List.range N).map (· + 1))
    (hnd : val_index.Nodup)
    (hlen : val_index.length = numValEngines N val_size)
    (hsub : ∀ i ∈ val_index, 1 ≤ i ∧ i ≤ N)
    (hres : split_val_set df val_index = some (tr, va)) :
    (∀ r ∈ df, (r ∈ tr ∨ r ∈ va) ∧ ¬ (r ∈ tr ∧ r ∈ va)) ∧
    tr.length + va.length = df.length ∧
    (∀ i ∈ tr.map (·.unit_nr), ¬ i ∈ va.map (·.unit_nr)) ∧
    distinctEngineCount va = numValEngines N val_size := by
  obtain ⟨htr, hva⟩ := split_val_set_eq_some df val_index tr va hres
  rw [hN, List.length_map, List.length_range] at htr hva
  have hdf : ∀ r ∈ df, r.unit_nr ∈ (List.range N).map (· + 1) := by
    intro r hr
    rw [← hN]
    exact mem_sortedIds.mpr (List.mem_map_of_mem _ hr)
  have htrIff : ∀ r, r ∈ tr ↔
      (¬ r.unit_nr ∈ val_index ∧ r.unit_nr ∈ (List.range N).map (· + 1) ∧
        r ∈ df) := by
    intro r
    rw [htr, mem_parts_flatten, List.mem_filter]
    simp only [decide_eq_true_eq]
    tauto
  have hvaIff : ∀ r, r ∈ va ↔
      (r.unit_nr ∈ val_index ∧ r.unit_nr ∈ (List.range N).map (· + 1) ∧
        r ∈ df) := by
    intro r
    rw [hva, mem_parts_flatten, List.mem_filter]
    simp only [decide_eq_true_eq]
    tauto
  refine ⟨?_, ?_, ?_, ?_⟩
  · intro r hr
    by_cases hu : r.unit_nr ∈ val_index
    · refine ⟨Or.inr ((hvaIff r).mpr ⟨hu, hdf r hr, hr⟩), ?_⟩
      rintro ⟨hin, -⟩
      exact ((htrIff r).mp hin).1 hu
    · refine ⟨Or.inl ((htrIff r).mpr ⟨hu, hdf r hr, hr⟩), ?_⟩
      rintro ⟨-, hin⟩
      exact hu ((hvaIff r).mp hin).1
  · have hconv : (((List.range N).map (· + 1)).filter (fun i => ¬ i ∈ val_index)) =
        (((List.range N).map (· + 1)).filter
          (fun i => !(decide (i ∈ val_index)))) := by
      apply List.filter_congr
      intro i _
      simp [decide_not]
    rw [htr, hva, hconv, List.length_flatten, List.length_flatten,
      List.map_map, List.map_map]
    have := sum_filter_not_split ((List.range N).map (· + 1))
      (fun i => decide (i ∈ val_index))
      (fun i => (df.filter (fun r => r.unit_nr = i)).length)
    have hsum := sum_group_lengths df ((List.range N).map (· + 1))
      (nodup_oneToN N) hdf
    simp only [Function.comp_def] at *
    omega
  · intro i hi hj
    rw [List.mem_map] at hi hj
    obtain ⟨r1, hr1, hu1⟩ := hi
    obtain ⟨r2, hr2, hu2⟩ := hj
    have h1 := ((htrIff r1).mp hr1).1
    have h2 := ((hvaIff r2).mp hr2).1
    rw [hu1] at h1
    rw [hu2] at h2
    exact h1 h2
  · have hsetEq : (va.map (·.unit_nr)).toFinset = val_index.toFinset := by
      ext a
      rw [List.mem_toFinset, List.mem_toFinset, List.mem_map]
      constructor
      · rintro ⟨r, hr, rfl⟩
        exact ((hvaIff r).mp hr).1
      · intro ha
        have haks : a ∈ (List.range N).map (· + 1) :=
          mem_oneToN.mpr (hsub a ha)
        have : a ∈ df.map (·.unit_nr) := by
          rw [← mem_sortedIds, hN]
          exact haks
        rw [List.mem_map] at this
        obtain ⟨r, hr, rfl⟩ := this
        exact ⟨r, (hvaIff r).mpr ⟨ha, haks, hr⟩, rfl⟩
    have h1 : distinctEngineCount va = (va.map (·.unit_nr)).toFinset.card := by
      rw [distinctEngineCount, sortedIds,
        (List.perm_insertionSort (· ≤ ·) (va.map (·.unit_nr)).dedup).length_eq,
        List.card_toFinset]
    rw [h1, hsetEq, List.toFinset_card_of_nodup hnd, hlen]

/-- Concrete instance of C10: three engines with `val_size = 1/5` draw
`int(3 * 0.2) = 0` validation engines and the call raises. -/
theorem split_val_set_empty_partition_raises_witness :
    numValEngines 3 (1/5) = 0 ∧
    split_val_set [⟨1, 1, 1, 0⟩, ⟨2, 1, 1, 0⟩, ⟨3, 1, 1, 0⟩] [] = none := by
  have hk : numValEngines 3 (1/5) = 0 := by norm_num [numValEngines]
  refine ⟨hk, split_val_set_empty_partition_raises _ 3 (1/5) [] ?_ ?_ ?_ ?_
    (Or.inl hk)⟩
  · decide
  · exact List.nodup_nil
  · simpa using hk.symm
  · simp

/-- C4 counterexample: ten one-record engines and `val_ratio = 0.19`.
The code draws `int(10 * 0.19) = 1` validation engine and returns one
distinct validation engine, while `round(10 * 0.19) = 2`. -/
theorem split_val_set_round_counterexample :
    [1].length = numValEngines 10 (19/100) ∧
    split_val_set
      [⟨1, 1, 1, 0⟩, ⟨2, 1, 1, 0⟩, ⟨3, 1, 1, 0⟩, ⟨4, 1, 1, 0⟩, ⟨5, 1, 1, 0⟩,
       ⟨6, 1, 1, 0⟩, ⟨7, 1, 1, 0⟩, ⟨8, 1, 1, 0⟩, ⟨9, 1, 1, 0⟩, ⟨10, 1, 1, 0⟩]
      [1] =
      some ([⟨2, 1, 1, 0⟩, ⟨3, 1, 1, 0⟩, ⟨4, 1, 1, 0⟩, ⟨5, 1, 1, 0⟩,
             ⟨6, 1, 1, 0⟩, ⟨7, 1, 1, 0⟩, ⟨8, 1, 1, 0⟩, ⟨9, 1, 1, 0⟩,
             ⟨10, 1, 1, 0⟩], [⟨1, 1, 1, 0⟩]) ∧
    distinctEngineCount [⟨1, 1, 1, 0⟩] = 1 ∧
    round ((10 : ℚ) * (19/100)) = 2 ∧
    distinctEngineCount [⟨1, 1, 1, 0⟩] ≠
      Int.toNat (round ((10 : ℚ) * (19/100))) := by
  refine ⟨by norm_num [numValEngines], by decide, by decide, ?_, ?_⟩
  · rw [round_eq]; norm_num
  · rw [round_eq]
    norm_num [distinctEngineCount, sortedIds]
    omega

/-- Concrete instance of the amended C4 on the same ten-engine frame. -/
theorem split_val_set_partition_witness :
    [1].length = numValEngines 10 (19/100) ∧
    ((∀ r ∈ [(⟨1, 1, 1, 0⟩ : LabeledRecord), ⟨2, 1, 1, 0⟩, ⟨3, 1, 1, 0⟩,
        ⟨4, 1, 1, 0⟩, ⟨5, 1, 1, 0⟩, ⟨6, 1, 1, 0⟩, ⟨7, 1, 1, 0⟩,
        ⟨8, 1, 1, 0⟩, ⟨9, 1, 1, 0⟩, ⟨10, 1, 1, 0⟩],
        (r ∈ [(⟨2, 1, 1, 0⟩ : LabeledRecord), ⟨3, 1, 1, 0⟩, ⟨4, 1, 1, 0⟩,
          ⟨5, 1, 1, 0⟩, ⟨6, 1, 1, 0⟩, ⟨7, 1, 1, 0⟩, ⟨8, 1, 1, 0⟩,
          ⟨9, 1, 1, 0⟩, ⟨10, 1, 1, 0⟩] ∨
         r ∈ [(⟨1, 1, 1, 0⟩ : LabeledRecord)]) ∧
        ¬ (r ∈ [(⟨2, 1, 1, 0⟩ : LabeledRecord), ⟨3, 1, 1, 0⟩, ⟨4, 1, 1, 0⟩,
          ⟨5, 1, 1, 0⟩, ⟨6, 1, 1, 0⟩, ⟨7, 1, 1, 0⟩, ⟨8, 1, 1, 0⟩,
          ⟨9, 1, 1, 0⟩, ⟨10, 1, 1, 0⟩] ∧
          r ∈ [(⟨1, 1, 1, 0⟩ : LabeledRecord)])) ∧
      ([(⟨2, 1, 1, 0⟩ : LabeledRecord), ⟨3, 1, 1, 0⟩, ⟨4, 1, 1, 0⟩,
        ⟨5, 1, 1, 0⟩, ⟨6, 1, 1, 0⟩, ⟨7, 1, 1, 0⟩, ⟨8, 1, 1, 0⟩,
        ⟨9, 1, 1, 0⟩, ⟨10, 1, 1, 0⟩].length +
        [(⟨1, 1, 1, 0⟩ : LabeledRecord)].length =
        [(⟨1, 1, 1, 0⟩ : LabeledRecord), ⟨2, 1, 1, 0⟩, ⟨3, 1, 1, 0⟩,
          ⟨4, 1, 1, 0⟩, ⟨5, 1, 1, 0⟩, ⟨6, 1, 1, 0⟩, ⟨7, 1, 1, 0⟩,
          ⟨8, 1, 1, 0⟩, ⟨9, 1, 1, 0⟩, ⟨10, 1, 1, 0⟩].length) ∧
      (∀ i ∈ [(⟨2, 1, 1, 0⟩ : LabeledRecord), ⟨3, 1, 1, 0⟩, ⟨4, 1, 1, 0⟩,
          ⟨5, 1, 1, 0⟩, ⟨6, 1, 1, 0⟩, ⟨7, 1, 1, 0⟩, ⟨8, 1, 1, 0⟩,
          ⟨9, 1, 1, 0⟩, ⟨10, 1, 1, 0⟩].map (·.unit_nr),
        ¬ i ∈ [(⟨1, 1, 1, 0⟩ : LabeledRecord)].map (·.unit_nr)) ∧
      distinctEngineCount [(⟨1, 1, 1, 0⟩ : LabeledRecord)] =
        numValEngines 10 (19/100)) := by
  have hlen : ([1] : List ℕ).length = numValEngines 10 (19/100) := by
    norm_num [numValEngines]
  refine ⟨hlen, split_val_set_partition _ 10 (19/100) [1] _ _
    (by decide) (by decide) (by simpa using hlen) (by decide) (by decide)⟩

/-! ## Windowing (`generate_window_sample`) -/

/-- One row of the labeled frame as seen by the windowing engine:
`unit_nr`, the row restricted to the selected sensor columns
(`engine[sensors].values`, one list of rationals per row) and the `rul`
label column. -/
structure WRecord where
  unit_nr : ℕ
  sensors : List ℚ
  rul : ℚ
deriving DecidableEq, Repr

/-- Junk record used as the out-of-range default of positional lookups;
the theorems only use lookups at positions shown to be in range. -/
def wdefault : WRecord := ⟨0, [], 0⟩

/-- `df.groupby(by="unit_nr")` as iterated by the windowing loop: the
ascending distinct ids, each paired with its rows in frame order. -/
def groupByUnit (df : List WRecord) : List (ℕ × List WRecord) :=
  (sortedIds (df.map (·.unit_nr))).map
    (fun id => (id, df.filter (fun r => r.unit_nr = id)))

/-- The body of the per-engine loop of `generate_window_sample` for one
engine trajectory `recs`: `(L - window_size) // slide_step` windows,
window `j` being `data[j : j + window_size]` (note: the code slices at
offset `j`, not `j * slide_step`), engine id `engine["unit_nr"].iloc[0]`
for every window, and label `j` being `engine["rul"].iloc[j + window_size]`. -/
def engineWindows (recs : List WRecord) (window_size slide_step : ℕ) :
    List (List (List ℚ)) × List ℕ × List ℚ :=
  let data := recs.map (·.sensors)
  let n := (recs.length - window_size) / slide_step
  ((List.range n).map (fun j => (data.drop j).take window_size),
   (List.range n).map (fun _ => (recs.getD 0 wdefault).unit_nr),
   (List.range n).map (fun j => (recs.getD (j + window_size) wdefault).rul))

/-- Embedding of `generate_window_sample(df, window_size, slide_step,
sensors)` from `dataset/cmapss.py` (the selected sensor columns are the
`sensors` field of `WRecord`).  Engines shorter than the window are
dropped with a warning; the kept engines' window lists, id lists and
label lists are concatenated.  `np.concatenate` raises (`none`) when
the kept-group list is empty, and when a kept engine with zero windows
(its entry converting to a 1-D empty array) meets an engine with
windows (a 3-D array): mismatched ranks. -/
def generate_window_sample (df : List WRecord)
    (window_size slide_step : ℕ) :
    Option (List (List (List ℚ)) × List ℕ × List ℚ) :=
  let kept := (groupByUnit df).filter (fun g => window_size ≤ g.2.length)
  let triples := kept.map (fun g => engineWindows g.2 window_size slide_step)
  if triples.isEmpty then none
  else if triples.any (fun t => t.1.isEmpty) &&
      triples.any (fun t => !t.1.isEmpty) then none
  else
    some ((triples.map (·.1)).flatten,
          (triples.map (fun t => t.2.1)).flatten,
          (triples.map (fun t => t.2.2)).flatten)

/-- The specification's window count
`sum over engines of max(0, floor((L_i - window_size) / slide_step))`,
written with natural subtraction and division (equal to the
integer-floor form since a trajectory shorter than the window
contributes `max(0, negative) = 0`). -/
def windowCountFormula (df : List WRecord) (window_size slide_step : ℕ) : ℕ :=
  ((groupByUnit df).map (fun g =>
    if g.2.length < window_size then 0
    else (g.2.length - window_size) / slide_step)).sum

/-- C1: the code slices window `j` at trajectory offset `j`, not at
`j * slide_step`.  On a 7-record engine with `window_size = 2`,
`slide_step = 2`, the function emits window 1 as the records at offsets
[1, 3), while the claimed window is the records at offsets
[1*2, 1*2 + 2) = [2, 4) - and the two differ. -/
theorem generate_window_sample_stride_bug :
    generate_window_sample
      [⟨1, [0], 100⟩, ⟨1, [1], 101⟩, ⟨1, [2], 102⟩, ⟨1, [3], 103⟩,
       ⟨1, [4], 104⟩, ⟨1, [5], 105⟩, ⟨1, [6], 106⟩] 2 2 =
      some ([[[0], [1]], [[1], [2]]], [1, 1], [102, 103]) ∧
    ((([(⟨1, [0], 100⟩ : WRecord), ⟨1, [1], 101⟩, ⟨1, [2], 102⟩,
        ⟨1, [3], 103⟩, ⟨1, [4], 104⟩, ⟨1, [5], 105⟩,
        ⟨1, [6], 106⟩].map (·.sensors)).drop (1 * 2)).take 2 =
      [[2], [3]]) ∧
    ([[(1:ℚ)], [2]] : List (List ℚ)) ≠ [[2], [3]] :=
  ⟨by decide, by decide, by decide⟩

/-- C3: with `slide_step = 1`, an engine trajectory of the frame with
length at least `window_size` contributes exactly
`length - window_size` windows inside `generate_window_sample`, and the
label of its `j`-th window is the `rul` of the trajectory record at
offset `j + window_size` (one position past the window's end). -/
theorem engineWindows_slide_one (df : List WRecord) (window_size id : ℕ)
    (recs : List WRecord) (hmem : (id, recs) ∈ groupByUnit df)
    (hW : window_size ≤ recs.length) :
    (engineWindows recs window_size 1).1.length = recs.length - window_size ∧
    (engineWindows recs window_size 1).2.2.length = recs.length - window_size ∧
    ∀ (j : ℕ) (hj : j < (engineWindows recs window_size 1).2.2.length),
      (engineWindows recs window_size 1).2.2.get ⟨j, hj⟩ =
        (recs.getD (j + window_size) wdefault).rul := by
  refine ⟨by simp [engineWindows], by simp [engineWindows], ?_⟩
  intro j hj
  simp [engineWindows]

/-- Concrete instance of C3: a single three-record engine with window
size 2 yields one window labeled by the record at offset 2. -/
theorem engineWindows_slide_one_witness :
    ((1 : ℕ), [(⟨1, [0], 5⟩ : WRecord), ⟨1, [1], 6⟩, ⟨1, [2], 7⟩]) ∈
      groupByUnit [⟨1, [0], 5⟩, ⟨1, [1], 6⟩, ⟨1, [2], 7⟩] ∧
    2 ≤ [(⟨1, [0], 5⟩ : WRecord), ⟨1, [1], 6⟩, ⟨1, [2], 7⟩].length ∧
    ((engineWindows [(⟨1, [0], 5⟩ : WRecord), ⟨1, [1], 6⟩, ⟨1, [2], 7⟩]
        2 1).1.length =
      [(⟨1, [0], 5⟩ : WRecord), ⟨1, [1], 6⟩, ⟨1, [2], 7⟩].length - 2 ∧
    (engineWindows [(⟨1, [0], 5⟩ : WRecord), ⟨1, [1], 6⟩, ⟨1, [2], 7⟩]
        2 1).2.2.length =
      [(⟨1, [0], 5⟩ : WRecord), ⟨1, [1], 6⟩, ⟨1, [2], 7⟩].length - 2 ∧
    ∀ (j : ℕ) (hj : j < (engineWindows [(⟨1, [0], 5⟩ : WRecord),
        ⟨1, [1], 6⟩, ⟨1, [2], 7⟩] 2 1).2.2.length),
      (engineWindows [(⟨1, [0], 5⟩ : WRecord), ⟨1, [1], 6⟩, ⟨1, [2], 7⟩]
          2 1).2.2.get ⟨j, hj⟩ =
        ([(⟨1, [0], 5⟩ : WRecord), ⟨1, [1], 6⟩,
          ⟨1, [2], 7⟩].getD (j + 2) wdefault).rul) :=
  ⟨by decide, by decide,
    engineWindows_slide_one [⟨1, [0], 5⟩, ⟨1, [1], 6⟩, ⟨1, [2], 7⟩] 2 1
      [⟨1, [0], 5⟩, ⟨1, [1], 6⟩, ⟨1, [2], 7⟩] (by decide) (by decide)⟩

/-- C2 counterexample: a kept engine of exactly window length (zero
windows, not dropped) alongside an engine with windows makes
`np.concatenate` raise instead of skipping the zero-window engine; the
claimed total would have been 2. -/
theorem generate_window_sample_zero_window_counterexample :
    generate_window_sample
      [⟨1, [0], 5⟩, ⟨1, [1], 6⟩, ⟨2, [2], 7⟩, ⟨2, [3], 8⟩, ⟨2, [4], 9⟩,
       ⟨2, [5], 10⟩] 2 1 = none ∧
    windowCountFormula
      [⟨1, [0], 5⟩, ⟨1, [1], 6⟩, ⟨2, [2], 7⟩, ⟨2, [3], 8⟩, ⟨2, [4], 9⟩,
       ⟨2, [5], 10⟩] 2 1 = 2 :=
  ⟨by decide, by decide⟩

theorem sum_map_filter_of_zero {α : Type} (l : List α) (p : α → Bool)
    (f : α → ℕ) (h0 : ∀ a ∈ l, p a = false → f a = 0) :
    ((l.filter p).map f).sum = (l.map f).sum := by
  induction l with
  | nil => rfl
  | cons a l ih =>
    have h0l : ∀ x ∈ l, p x = false → f x = 0 := fun x hx =>
      h0 x (List.mem_cons_of_mem a hx)
    cases hp : p a
    · simp [List.filter_cons, hp, h0 a (List.mem_cons_self a l) hp, ih h0l]
    · simp [List.filter_cons, hp, ih h0l]

/-- C2 (amended): provided at least one trajectory reaches the window
size, and the kept trajectories do not mix zero-window engines with
window-producing ones (that mix makes `np.concatenate` raise on
mismatched ranks), `generate_window_sample` returns three arrays whose
common leading length is
`sum over engines of max(0, floor((L_i - window_size)/slide_step))`;
trajectories shorter than the window are dropped (with a warning) and
contribute zero. -/
theorem generate_window_sample_total_count (df : List WRecord)
    (window_size slide_step : ℕ)
    (hne : ∃ g ∈ groupByUnit df, window_size ≤ g.2.length)
    (huni : (∀ g ∈ groupByUnit df, window_size ≤ g.2.length →
              (g.2.length - window_size) / slide_step = 0) ∨
            (∀ g ∈ groupByUnit df, window_size ≤ g.2.length →
              0 < (g.2.length - window_size) / slide_step)) :
    ∃ r i l, generate_window_sample df window_size slide_step =
        some (r, i, l) ∧
      r.length = windowCountFormula df window_size slide_step ∧
      i.length = windowCountFormula df window_size slide_step ∧
      l.length = windowCountFormula df window_size slide_step := by
  classical
  set kept := (groupByUnit df).filter
    (fun g => window_size ≤ g.2.length) with hkept
  set triples := kept.map
    (fun g => engineWindows g.2 window_size slide_step) with htriples
  have hmemkept : ∀ g ∈ kept, g ∈ groupByUnit df ∧
      window_size ≤ g.2.length := by
    intro g hg
    rw [hkept, List.mem_filter] at hg
    exact ⟨hg.1, by simpa using hg.2⟩
  have hkeptne : kept ≠ [] := by
    obtain ⟨g, hg, hWg⟩ := hne
    exact List.ne_nil_of_mem
      (List.mem_filter.mpr ⟨hg, by simpa using hWg⟩)
  have hempty : triples.isEmpty = false := by
    rw [htriples, List.isEmpty_eq_false, ← List.isEmpty_eq_false]
    simpa using hkeptne
  have hwinlen : ∀ g : ℕ × List WRecord,
      (engineWindows g.2 window_size slide_step).1.length =
        (g.2.length - window_size) / slide_step := by
    intro g; simp [engineWindows]
  have hguard : (triples.any (fun t => t.1.isEmpty) &&
      triples.any (fun t => !t.1.isEmpty)) = false := by
    rcases huni with huni | huni
    · have : triples.any (fun t => !t.1.isEmpty) = false := by
        rw [List.any_eq_false]
        intro t ht
        rw [htriples, List.mem_map] at ht
        obtain ⟨g, hg, rfl⟩ := ht
        obtain ⟨hg1, hg2⟩ := hmemkept g hg
        have hzero := huni g hg1 hg2
        simp [engineWindows, List.isEmpty_iff, hzero]
      simp [this]
    · have : triples.any (fun t => t.1.isEmpty) = false := by
        rw [List.any_eq_false]
        intro t ht
        rw [htriples, List.mem_map] at ht
        obtain ⟨g, hg, rfl⟩ := ht
        obtain ⟨hg1, hg2⟩ := hmemkept g hg
        have hpos := huni g hg1 hg2
        simp [engineWindows, List.isEmpty_iff]
        omega
      simp [this]
  refine ⟨(triples.map (·.1)).flatten,
          (triples.map (fun t => t.2.1)).flatten,
          (triples.map (fun t => t.2.2)).flatten, ?_, ?_, ?_, ?_⟩
  · simp only [generate_window_sample]
    rw [← hkept, ← htriples, hempty, hguard]
    simp
  · rw [List.length_flatten, htriples, List.map_map, List.map_map]
    show (kept.map (fun g =>
      (engineWindows g.2 window_size slide_step).1.length)).sum =
      windowCountFormula df window_size slide_step
    have hpt : ∀ g ∈ kept,
        (engineWindows g.2 window_size slide_step).1.length =
        (fun g : ℕ × List WRecord => if g.2.length < window_size then 0
          else (g.2.length - window_size) / slide_step) g := by
      intro g hg
      obtain ⟨-, hg2⟩ := hmemkept g hg
      simp [engineWindows, if_neg (Nat.not_lt_of_le hg2)]
    rw [List.map_congr_left hpt, windowCountFormula, hkept]
    exact sum_map_filter_of_zero (groupByUnit df) _ _ (by
      intro g hg hfalse
      have : g.2.length < window_size := by
        simpa using hfalse
      simp [if_pos this])
  · rw [List.length_flatten, htriples, List.map_map, List.map_map]
    show (kept.map (fun g =>
      (engineWindows g.2 window_size slide_step).2.1.length)).sum =
      windowCountFormula df window_size slide_step
    have hpt : ∀ g ∈ kept,
        (engineWindows g.2 window_size slide_step).2.1.length =
        (fun g : ℕ × List WRecord => if g.2.length < window_size then 0
          else (g.2.length - window_size) / slide_step) g := by
      intro g hg
      obtain ⟨-, hg2⟩ := hmemkept g hg
      simp [engineWindows, if_neg (Nat.not_lt_of_le hg2)]
    rw [List.map_congr_left hpt, windowCountFormula, hkept]
    exact sum_map_filter_of_zero (groupByUnit df) _ _ (by
      intro g hg hfalse
      have : g.2.length < window_size := by
        simpa using hfalse
      simp [if_pos this])
  · rw [List.length_flatten, htriples, List.map_map, List.map_map]
    show (kept.map (fun g =>
      (engineWindows g.2 window_size slide_step).2.2.length)).sum =
      windowCountFormula df window_size slide_step
    have hpt : ∀ g ∈ kept,
        (engineWindows g.2 window_size slide_step).2.2.length =
        (fun g : ℕ × List WRecord => if g.2.length < window_size then 0
          else (g.2.length - window_size) / slide_step) g := by
      intro g hg
      obtain ⟨-, hg2⟩ := hmemkept g hg
      simp [engineWindows, if_neg (Nat.not_lt_of_le hg2)]
    rw [List.map_congr_left hpt, windowCountFormula, hkept]
    exact sum_map_filter_of_zero (groupByUnit df) _ _ (by
      intro g hg hfalse
      have : g.2.length < window_size := by
        simpa using hfalse
      simp [if_pos this])

/-- Concrete instance of the amended C2: one three-record engine,
window size 2, slide step 1, total one window. -/
theorem generate_window_sample_total_count_witness :
    (∃ g ∈ groupByUnit [(⟨1, [0], 5⟩ : WRecord), ⟨1, [1], 6⟩, ⟨1, [2], 7⟩],
      2 ≤ g.2.length) ∧
    (∃ r i l, generate_window_sample
        [(⟨1, [0], 5⟩ : WRecord), ⟨1, [1], 6⟩, ⟨1, [2], 7⟩] 2 1 =
          some (r, i, l) ∧
      r.length = windowCountFormula
        [(⟨1, [0], 5⟩ : WRecord), ⟨1, [1], 6⟩, ⟨1, [2], 7⟩] 2 1 ∧
      i.length = windowCountFormula
        [(⟨1, [0], 5⟩ : WRecord), ⟨1, [1], 6⟩, ⟨1, [2], 7⟩] 2 1 ∧
      l.length = windowCountFormula
        [(⟨1, [0], 5⟩ : WRecord), ⟨1, [1], 6⟩, ⟨1, [2], 7⟩] 2 1) :=
  ⟨by decide, generate_window_sample_total_count
    [⟨1, [0], 5⟩, ⟨1, [1], 6⟩, ⟨1, [2], 7⟩] 2 1 (by decide)
    (Or.inr (by decide))⟩

/-! ## Label-distance random negative sampler
(`CmapssRandomNegtiveSampler`) -/

/-- The candidate pool of `CmapssRandomNegtiveSampler.sample`:
`np.argwhere(np.abs(labels - labels[index]) > thresh)`, the ascending
dataset indices whose label is farther than `thresh` from the anchor
label. -/
def candidateIndexes (labels : List ℚ) (index : ℕ) (thresh : ℚ) : List ℕ :=
  (List.range labels.length).filter
    (fun i => thresh < |labels.getD i 0 - labels.getD index 0|)

/-- The population that `np.random.choice` actually samples from.
`np.squeeze` collapses a one-row `argwhere` result to a 0-d array; the
legacy `RandomState.choice` accepts a 0-d array, converting its single
value `v` to an integer via `operator.index(a.item())` and sampling
from `np.arange(v)` - the drawn samples are then the integers below
`v`, not the candidate itself.  With zero or at least two candidates
the squeezed array is 1-d and the population is the candidate list
itself. -/
def drawPool (cand : List ℕ) : List ℕ :=
  if cand.length = 1 then List.range (cand.getD 0 0) else cand

/-- A possible value of
`np.random.choice(population, size = k, replace = False)`: `k` distinct
members of the population. -/
def validDraw (cand : List ℕ) (k : ℕ) (draw : List ℕ) : Prop :=
  draw.length = k ∧ draw.Nodup ∧ ∀ i ∈ draw, i ∈ cand

namespace CmapssRandomNegtiveSampler

/-- Embedding of `CmapssRandomNegtiveSampler.sample(index)` from
`dataset/cmapss.py`.  The random draw is the explicit `draw` argument,
taken from `drawPool` of the qualifying candidates (see there for the
0-d squeeze corner).  `np.random.choice` raises - modeled by `none` -
exactly when the population is smaller than the requested
`replace=False` draw of `neg_num + 1` (this covers the empty pool, and
the one-candidate pool whose lone value is below `neg_num + 1`,
including value 0 where choice rejects a nonpositive population).
Otherwise the drawn index vector has its position 0 overwritten with
`index` and the data and label arrays are gathered along it. -/
def sample {α : Type} [Inhabited α] (data : List α) (labels : List ℚ)
    (neg_num : ℕ) (thresh : ℚ) (index : ℕ) (draw : List ℕ) :
    Option (List α × List ℚ) :=
  let pop := drawPool (candidateIndexes labels index thresh)
  if pop.length < neg_num + 1 then none
  else
    let idxs := index :: draw.drop 1
    some (idxs.map (fun i => data.getD i default),
          idxs.map (fun i => labels.getD i 0))

end CmapssRandomNegtiveSampler

/-- C7 counterexample: labels `[0, 0, 1]`, threshold 0.2, anchor 0,
`neg_num = 1`.  Exactly one index qualifies (index 2), so the claim
demands an `InsufficientData` raise (pool 1 < neg_num + 1 = 2); but the
squeezed 0-d array is reinterpreted by the legacy `choice` as the
population `arange(2)`, so the call returns - and the returned entry at
position 1 carries label 0, not farther than the threshold from the
anchor label. -/
theorem random_sampler_single_candidate_counterexample :
    (candidateIndexes [0, 0, 1] 0 (1/5)).length = 1 ∧
    (candidateIndexes [0, 0, 1] 0 (1/5)).length < 1 + 1 ∧
    validDraw (drawPool (candidateIndexes [0, 0, 1] 0 (1/5))) (1 + 1)
      [0, 1] ∧
    CmapssRandomNegtiveSampler.sample [(10:ℚ), 20, 30] [0, 0, 1] 1 (1/5)
      0 [0, 1] = some ([10, 20], [0, 0]) ∧
    ¬ ((1/5 : ℚ) < |(0:ℚ) - (0:ℚ)|) := by
  have hc : candidateIndexes [0, 0, 1] 0 (1/5) = [2] := by
    norm_num [candidateIndexes, List.filter]
  refine ⟨by rw [hc]; rfl, by rw [hc]; decide, ?_, ?_, by norm_num⟩
  · rw [hc]
    exact ⟨rfl, by decide, by decide⟩
  · simp only [CmapssRandomNegtiveSampler.sample, hc]
    decide

/-- C7 (amended): `sample` raises exactly when the population seen by
the legacy `np.random.choice` - the qualifying candidate list itself
when zero or at least two indices qualify, but `arange(v)` when exactly
one index `v` qualifies (the 0-d squeeze corner) - has fewer than
`neg_num + 1` members; otherwise it returns `neg_num + 1` entries whose
position 0 holds the dataset's own sample and label at `index`, and,
whenever the number of qualifying indices is not exactly one, every
later entry carries a label farther than `sample_thresh` from the
anchor label (in the one-candidate corner the negatives are drawn from
`arange(v)` and need not respect the threshold). -/
theorem random_sampler_spec {α : Type} [Inhabited α] (data : List α)
    (labels : List ℚ) (neg_num : ℕ) (thresh : ℚ) (index : ℕ)
    (draw : List ℕ)
    (hlen : data.length = labels.length)
    (hidx : index < labels.length)
    (hdraw : validDraw (drawPool (candidateIndexes labels index thresh))
      (neg_num + 1) draw) :
    ((drawPool (candidateIndexes labels index thresh)).length <
        neg_num + 1 →
      CmapssRandomNegtiveSampler.sample data labels neg_num thresh index
        draw = none) ∧
    (neg_num + 1 ≤
        (drawPool (candidateIndexes labels index thresh)).length →
      ∃ s l, CmapssRandomNegtiveSampler.sample data labels neg_num thresh
          index draw = some (s, l) ∧
        s.length = neg_num + 1 ∧ l.length = neg_num + 1 ∧
        s.getD 0 default = data.getD index default ∧
        l.getD 0 0 = labels.getD index 0 ∧
        ((candidateIndexes labels index thresh).length ≠ 1 →
          ∀ k, 1 ≤ k → k < neg_num + 1 →
            thresh < |l.getD k 0 - labels.getD index 0|)) := by
  obtain ⟨hdlen, hdnodup, hdmem⟩ := hdraw
  constructor
  · intro h
    simp only [CmapssRandomNegtiveSampler.sample]
    rw [if_pos h]
  · intro hge
    simp only [CmapssRandomNegtiveSampler.sample]
    rw [if_neg (Nat.not_lt_of_le hge)]
    have hdrop : (draw.drop 1).length = neg_num := by
      rw [List.length_drop, hdlen]
      omega
    refine ⟨_, _, rfl, ?_, ?_, ?_, ?_, ?_⟩
    · simp only [List.length_map, List.length_cons, List.length_drop, hdlen]
      omega
    · simp only [List.length_map, List.length_cons, List.length_drop, hdlen]
      omega
    · simp
    · simp
    · intro hne1 k hk1 hk2
      have hkidx : k < (index :: draw.drop 1).length := by
        simp [hdrop]; omega
      have hkl : k < ((index :: draw.drop 1).map
          (fun i => labels.getD i 0)).length := by
        simpa using hkidx
      rw [List.getD_eq_getElem _ _ hkl, List.getElem_map]
      obtain ⟨k2, rfl⟩ : ∃ k2, k = k2 + 1 := ⟨k - 1, by omega⟩
      rw [List.getElem_cons_succ]
      have hkd : k2 < (draw.drop 1).length := by
        simp at hkidx
        omega
      have hmemdrop : (draw.drop 1).get ⟨k2, hkd⟩ ∈ draw.drop 1 :=
        List.get_mem _ _ _
      have hmemdraw : (draw.drop 1).get ⟨k2, hkd⟩ ∈ draw :=
        List.mem_of_mem_drop hmemdrop
      have hcand := hdmem _ hmemdraw
      rw [drawPool, if_neg hne1] at hcand
      rw [candidateIndexes, List.mem_filter, List.get_eq_getElem] at hcand
      simpa using hcand.2

/-- Concrete instance of the amended C7: three labels, two candidates
(so the population is the candidate list itself), one negative
drawn. -/
theorem random_sampler_spec_witness :
    validDraw (drawPool (candidateIndexes [0, 1, 2] 0 (1/5))) (1 + 1)
      [1, 2] ∧
    (((drawPool (candidateIndexes [0, 1, 2] 0 (1/5))).length < 1 + 1 →
      CmapssRandomNegtiveSampler.sample [(10:ℚ), 20, 30] [0, 1, 2] 1 (1/5)
        0 [1, 2] = none) ∧
    (1 + 1 ≤ (drawPool (candidateIndexes [0, 1, 2] 0 (1/5))).length →
      ∃ s l, CmapssRandomNegtiveSampler.sample [(10:ℚ), 20, 30] [0, 1, 2] 1
          (1/5) 0 [1, 2] = some (s, l) ∧
        s.length = 1 + 1 ∧ l.length = 1 + 1 ∧
        s.getD 0 default = [(10:ℚ), 20, 30].getD 0 default ∧
        l.getD 0 0 = [(0:ℚ), 1, 2].getD 0 0 ∧
        ((candidateIndexes [0, 1, 2] 0 (1/5)).length ≠ 1 →
          ∀ k, 1 ≤ k → k < 1 + 1 →
            (1/5 : ℚ) < |l.getD k 0 - [(0:ℚ), 1, 2].getD 0 0|))) := by
  have hc : candidateIndexes [0, 1, 2] 0 (1/5) = [1, 2] := by
    norm_num [candidateIndexes, List.filter]
  have hdraw : validDraw (drawPool (candidateIndexes [0, 1, 2] 0 (1/5)))
      (1 + 1) [1, 2] := by
    rw [hc]
    exact ⟨rfl, by decide, by decide⟩
  exact ⟨hdraw, random_sampler_spec [(10:ℚ), 20, 30] [0, 1, 2] 1 (1/5) 0
    [1, 2] rfl (by norm_num) hdraw⟩

/-! ## Hand-rolled recurrent cell
(`LSTM` in `models/RULPrediction/SimpleModels.py`) -/

/-- An `nn.Linear(in_features, out_features)` layer: the learned affine
map `v ↦ W v + b`. -/
structure Linear (inF outF : ℕ) where
  weight : Fin outF → Fin inF → ℚ
  bias : Fin outF → ℚ

def Linear.apply {inF outF : ℕ} (W : Linear inF outF) (v : Fin inF → ℚ) :
    Fin outF → ℚ :=
  fun o => (∑ i, W.weight o i * v i) + W.bias o

/-- Parameters of the hand-rolled recurrent cell: four independent
linear maps from `input_size + hidden_size` to `hidden_size`, the
configured dropout rate, and the action of the `nn.Dropout` module on a
hidden vector (abstract, as dropout is stochastic in training mode and
the identity in eval mode).  The activations `F.sigmoid` and `F.tanh`
are real transcendental functions and enter the embedding as the
abstract scalar functions `sigF`/`tanF` passed to `forward`; one
sequence of the batch is modeled (the batch dimension is pointwise). -/
structure LSTM (input_size hidden_size : ℕ) where
  wf : Linear (input_size + hidden_size) hidden_size
  wi : Linear (input_size + hidden_size) hidden_size
  wc : Linear (input_size + hidden_size) hidden_size
  wo : Linear (input_size + hidden_size) hidden_size
  dropout : ℚ
  dropoutFn : (Fin hidden_size → ℚ) → (Fin hidden_size → ℚ)

/-- One iteration of the loop in `LSTM.forward`: gates from
`z = concat(x_t, h)` (with the pre-update `h` throughout, as every
`torch.concat([x[:, i, :], h], dim=-1)` in the body reads `h` before
the line `h = ot * F.tanh(c)` rebinds it), cell update, output gate,
hidden update, then dropout on `h` when a positive rate is
configured. -/
def LSTM.step {f hd : ℕ} (m : LSTM f hd) (sigF tanF : ℚ → ℚ)
    (xt : Fin f → ℚ) (hc : (Fin hd → ℚ) × (Fin hd → ℚ)) :
    (Fin hd → ℚ) × (Fin hd → ℚ) :=
  let z := Fin.append xt hc.1
  let ft := fun k => sigF (m.wf.apply z k)
  let it := fun k => sigF (m.wi.apply z k)
  let cbar := fun k => tanF (m.wc.apply z k)
  let c2 := fun k => ft k * hc.2 k + it k * cbar k
  let ot := fun k => sigF (m.wo.apply z k)
  let h2 := fun k => ot k * tanF (c2 k)
  let h3 := if 0 < m.dropout then m.dropoutFn h2 else h2
  (h3, c2)

/-- The `(h, c)` pair after `t` iterations, from
`h = torch.zeros(...)`, `c = torch.zeros(...)`. -/
def LSTM.states {f hd : ℕ} (m : LSTM f hd) (sigF tanF : ℚ → ℚ)
    (x : ℕ → Fin f → ℚ) : ℕ → (Fin hd → ℚ) × (Fin hd → ℚ)
  | 0 => (fun _ => 0, fun _ => 0)
  | t + 1 => LSTM.step m sigF tanF (x t) (LSTM.states m sigF tanF x t)

/-- Embedding of `LSTM.forward(x)` from
`models/RULPrediction/SimpleModels.py` on one sequence of length `L`:
the per-timestep hidden states collected into `outputs` and stacked
along the time axis, together with the final `(h, c)` pair.
`torch.stack` on the empty output list raises (`none`) when `L = 0`. -/
def LSTM.forward {f hd : ℕ} (m : LSTM f hd) (sigF tanF : ℚ → ℚ) (L : ℕ)
    (x : ℕ → Fin f → ℚ) :
    Option (List (Fin hd → ℚ) × ((Fin hd → ℚ) × (Fin hd → ℚ))) :=
  if L = 0 then none
  else some ((List.range L).map (fun t => (LSTM.states m sigF tanF x (t + 1)).1),
    LSTM.states m sigF tanF x L)

/-- C9: the hand-rolled forward pass starts from `h_0 = c_0 = 0` and at
each step computes, with `z_t = concat(x_t, h_t)`:
`f = sigF (wf z)`, `i = sigF (wi z)`, `cand = tanF (wc z)`,
`c_{t+1} = f * c_t + i * cand`, `o = sigF (wo z)`,
`h_{t+1} = o * tanF c_{t+1}` with dropout applied to the hidden state
exactly when a positive rate is configured; it returns the stacked
hidden sequence together with the final `(h, c)` pair. -/
theorem LSTM.forward_spec {f hd : ℕ} (m : LSTM f hd) (sigF tanF : ℚ → ℚ)
    (L : ℕ) (x : ℕ → Fin f → ℚ) (hL : 0 < L) :
    ∃ hs hfin cfin,
      LSTM.forward m sigF tanF L x = some (hs, hfin, cfin) ∧
      hs.length = L ∧
      ∃ hseq cseq : ℕ → Fin hd → ℚ,
        (∀ k, hseq 0 k = 0) ∧ (∀ k, cseq 0 k = 0) ∧
        (∀ t < L, ∀ k : Fin hd,
          cseq (t + 1) k =
            sigF (m.wf.apply (Fin.append (x t) (hseq t)) k) * cseq t k +
            sigF (m.wi.apply (Fin.append (x t) (hseq t)) k) *
              tanF (m.wc.apply (Fin.append (x t) (hseq t)) k)) ∧
        (∀ t < L,
          hseq (t + 1) =
            (if 0 < m.dropout then m.dropoutFn else id)
              (fun k => sigF (m.wo.apply (Fin.append (x t) (hseq t)) k) *
                tanF (cseq (t + 1) k))) ∧
        (∀ (t : ℕ) (ht : t < hs.length), hs.get ⟨t, ht⟩ = hseq (t + 1)) ∧
        hfin = hseq L ∧ cfin = cseq L := by
  refine ⟨(List.range L).map (fun t => (LSTM.states m sigF tanF x (t + 1)).1),
    (LSTM.states m sigF tanF x L).1, (LSTM.states m sigF tanF x L).2,
    ?_, by simp, ?_⟩
  · rw [LSTM.forward, if_neg (Nat.pos_iff_ne_zero.mp hL)]
  · refine ⟨fun t => (LSTM.states m sigF tanF x t).1,
      fun t => (LSTM.states m sigF tanF x t).2,
      fun k => rfl, fun k => rfl, ?_, ?_, ?_, rfl, rfl⟩
    · intro t ht k
      rfl
    · intro t ht
      show (LSTM.step m sigF tanF (x t) (LSTM.states m sigF tanF x t)).1 = _
      rw [LSTM.step]
      by_cases hdp : 0 < m.dropout
      · simp only [if_pos hdp]
        rfl
      · simp only [if_neg hdp]
        rfl
    · intro t ht
      rw [List.get_eq_getElem, List.getElem_map, List.getElem_range]

/-- Concrete one-by-one cell used by the C9 instance below: all gate
weights 1, all biases 0, dropout rate 0. -/
def unitCell : LSTM 1 1 :=
  ⟨⟨fun _ _ => 1, fun _ => 0⟩, ⟨fun _ _ => 1, fun _ => 0⟩,
   ⟨fun _ _ => 1, fun _ => 0⟩, ⟨fun _ _ => 1, fun _ => 0⟩, 0, id⟩

/-- Constant unit input sequence for the C9 instance. -/
def unitInput : ℕ → Fin 1 → ℚ := fun _ _ => 1

/-- Concrete instance of C9: a one-step sequence with unit
dimensions. -/
theorem LSTM_forward_spec_witness :
    (0 : ℕ) < 1 ∧
    (∃ hs hfin cfin,
      LSTM.forward unitCell id id 1 unitInput = some (hs, hfin, cfin) ∧
      hs.length = 1 ∧
      ∃ hseq cseq : ℕ → Fin 1 → ℚ,
        (∀ k, hseq 0 k = 0) ∧ (∀ k, cseq 0 k = 0) ∧
        (∀ t < 1, ∀ k : Fin 1,
          cseq (t + 1) k =
            id (unitCell.wf.apply (Fin.append (unitInput t) (hseq t)) k) *
              cseq t k +
            id (unitCell.wi.apply (Fin.append (unitInput t) (hseq t)) k) *
              id (unitCell.wc.apply (Fin.append (unitInput t) (hseq t)) k)) ∧
        (∀ t < 1,
          hseq (t + 1) =
            (if 0 < unitCell.dropout then unitCell.dropoutFn else id)
              (fun k =>
                id (unitCell.wo.apply (Fin.append (unitInput t) (hseq t)) k) *
                id (cseq (t + 1) k))) ∧
        (∀ (t : ℕ) (ht : t < hs.length), hs.get ⟨t, ht⟩ = hseq (t + 1)) ∧
        hfin = hseq 1 ∧ cfin = cseq 1) :=
  ⟨by decide, LSTM.forward_spec unitCell id id 1 unitInput (by decide)⟩

/-! ## Engine/interval-stratified negative sampler
(`CmapssNegativeSampler`) -/

/-- `np.argwhere(self.ids == engine)`: the ascending dataset indices
whose engine id equals `engine`. -/
def argIdxs (ids : List ℕ) (engine : ℕ) : List ℕ :=
  (List.range ids.length).filter (fun t => ids.getD t 0 = engine)

/-- `random_range_start = sample_indexes[0][0] + i * gap` with
`gap = sample_indexes.shape[0] // self.interval_nums`. -/
def segStart (idxs : List ℕ) (n i : ℕ) : ℕ :=
  idxs.getD 0 0 + i * (idxs.length / n)

/-- `random_range_end = random_range_start + gap if i != interval_nums - 1
else sample_indexes[-1][0] + 1`. -/
def segStop (idxs : List ℕ) (n i : ℕ) : ℕ :=
  if i = n - 1 then idxs.getLast?.getD 0 + 1
  else segStart idxs n i + idxs.length / n

/-- The mutable state of `CmapssNegativeSampler.sample`: the
`neg_samples` and `neg_labels` Python lists (a slot is `none` while it
still holds the integer placeholder 0 of `[0] * (interval_nums *
engine_num)`, and `some v` once assigned an array) and the write index
`j`.  The parallel `neg_ids` list is filled at exactly the same
positions and never returned, so it is omitted. -/
structure NegState (α : Type) where
  samples : List (Option α)
  labels : List (Option ℚ)
  j : ℕ
deriving Repr

/-- Python list assignment `l[n] = b`: raises `IndexError` past the end. -/
def pySet {β : Type} (l : List β) (n : ℕ) (b : β) : Option (List β) :=
  if n < l.length then some (l.set n b) else none

/-- One iteration of the inner (interval) loop of
`CmapssNegativeSampler.sample`: skip when the segment contains `index`
and the current engine is the anchor engine, otherwise draw one index
from the segment (raising on an empty range, as `np.random.choice`
does) and write the drawn sample and label at position `j`. -/
def segStep {α : Type} [Inhabited α] (data : List α) (labels : List ℚ)
    (index : ℕ) (segDraw : ℕ → ℕ → ℕ) (anchor engine : ℕ)
    (idxs : List ℕ) (n : ℕ) (st : NegState α) (i : ℕ) :
    Option (NegState α) :=
  if segStart idxs n i ≤ index ∧ index < segStop idxs n i ∧
      engine = anchor then some st
  else if segStart idxs n i < segStop idxs n i then
    let k := segDraw (segStart idxs n i) (segStop idxs n i)
    match pySet st.samples st.j (some (data.getD k default)),
          pySet st.labels st.j (some (labels.getD k 0)) with
    | some s2, some l2 => some ⟨s2, l2, st.j + 1⟩
    | _, _ => none
  else none

/-- The inner loop over `range(interval_nums)` starting at segment `i`
with `k` segments left. -/
def segLoop {α : Type} [Inhabited α] (data : List α) (labels : List ℚ)
    (index : ℕ) (segDraw : ℕ → ℕ → ℕ) (anchor engine : ℕ)
    (idxs : List ℕ) (n : ℕ) : ℕ → ℕ → NegState α → Option (NegState α)
  | 0, _, st => some st
  | k + 1, i, st =>
    match segStep data labels index segDraw anchor engine idxs n st i with
    | none => none
    | some st2 => segLoop data labels index segDraw anchor engine idxs n
        k (i + 1) st2

/-- The body of the outer (engine) loop: compute the engine's
`argwhere` index list and run the interval loop.  `interval_nums = 0`
raises on the `//` (modeled by `none`); an engine absent from `ids`
raises on `sample_indexes[0][0]`. -/
def engineStep {α : Type} [Inhabited α] (data : List α) (labels : List ℚ)
    (ids : List ℕ) (index : ℕ) (segDraw : ℕ → ℕ → ℕ) (anchor : ℕ)
    (n : ℕ) (st : NegState α) (engine : ℕ) : Option (NegState α) :=
  let idxs := argIdxs ids engine
  if n = 0 then none
  else if idxs.isEmpty then none
  else segLoop data labels index segDraw anchor engine idxs n n 0 st

/-- The outer loop over the drawn engine ids. -/
def engineLoop {α : Type} [Inhabited α] (data : List α) (labels : List ℚ)
    (ids : List ℕ) (index : ℕ) (segDraw : ℕ → ℕ → ℕ) (anchor : ℕ)
    (n : ℕ) : List ℕ → NegState α → Option (NegState α)
  | [], st => some st
  | e :: es, st =>
    match engineStep data labels ids index segDraw anchor n st e with
    | none => none
    | some st2 => engineLoop data labels ids index segDraw anchor n es st2

namespace CmapssNegativeSampler

/-- Embedding of `CmapssNegativeSampler.sample(index)` from
`dataset/cmapss.py`.  The two random draws are explicit arguments:
`engineDraw` is the value of `np.random.choice(np.unique(self.ids),
engine_num, replace=False)`, and `segDraw s t` the value of
`np.random.choice(range(s, t), 1)[0]`.  The drawn engine list gets its
position 0 overwritten with the anchor engine when the anchor was not
drawn; the slot arrays are sized `interval_nums * engine_num` and
filled from position 1 by the loops; finally position 0 receives the
anchor sample and label.  The returned pair models
`(np.stack(neg_samples), np.array(neg_labels))` before stacking, with
`none` entries for slots still holding the integer placeholder. -/
def sample {α : Type} [Inhabited α] (data : List α) (labels : List ℚ)
    (ids : List ℕ) (engine_num interval_num : ℕ) (index : ℕ)
    (engineDraw : List ℕ) (segDraw : ℕ → ℕ → ℕ) :
    Option (List (Option α) × List (Option ℚ)) :=
  let anchor := ids.getD index 0
  let engine_ids := if anchor ∈ engineDraw then engineDraw
    else engineDraw.set 0 anchor
  let total := interval_num * engine_num
  let st0 : NegState α := ⟨List.replicate total none,
    List.replicate total none, 1⟩
  match engineLoop data labels ids index segDraw anchor interval_num
      engine_ids st0 with
  | none => none
  | some st =>
    match pySet st.samples 0 (some (data.getD index default)),
          pySet st.labels 0 (some (labels.getD index 0)) with
    | some s2, some l2 => some (s2, l2)
    | _, _ => none

end CmapssNegativeSampler

/-- C8 counterexample: two engines of four windows each, `engine_num =
1`, `interval_num = 4`, `index = 0`.  The anchor segment containing the
index is skipped (the write index simply does not advance), yet the
returned arrays contain no placeholder at all: the output is sized
`interval_num * engine_num = 4` and holds the anchor at position 0 plus
exactly the three drawn negatives. -/
theorem negative_sampler_no_placeholder_counterexample :
    CmapssNegativeSampler.sample [(0:ℚ), 1, 2, 3, 4, 5, 6, 7]
      [0, 1, 2, 3, 4, 5, 6, 7] [1, 1, 1, 1, 2, 2, 2, 2] 1 4 0 [1]
      (fun s _ => s) =
      some ([some 0, some 1, some 2, some 3],
            [some 0, some 1, some 2, some 3]) ∧
    (segStart [0, 1, 2, 3] 4 0 ≤ 0 ∧ 0 < segStop [0, 1, 2, 3] 4 0) ∧
    ∀ o ∈ [some (0:ℚ), some 1, some 2, some 3], o.isSome := by
  refine ⟨by decide, by decide, by decide⟩

theorem argIdxs_pairwise (ids : List ℕ) (e : ℕ) :
    (argIdxs ids e).Pairwise (· < ·) :=
  (List.pairwise_lt_range ids.length).filter _

theorem mem_argIdxs {ids : List ℕ} {e t : ℕ} :
    t ∈ argIdxs ids e ↔ t < ids.length ∧ ids.getD t 0 = e := by
  simp [argIdxs]

theorem getD_zero_le_of_mem {l : List ℕ} (hp : l.Pairwise (· < ·))
    {x : ℕ} (hx : x ∈ l) : l.getD 0 0 ≤ x := by
  cases l with
  | nil => cases hx
  | cons a t =>
    rw [List.getD_cons_zero]
    rcases List.mem_cons.mp hx with rfl | hx2
    · exact le_refl x
    · exact le_of_lt ((List.pairwise_cons.mp hp).1 x hx2)

theorem le_getLastD_of_mem {l : List ℕ} (hp : l.Pairwise (· < ·)) :
    ∀ x ∈ l, x ≤ l.getLast?.getD 0 := by
  induction l with
  | nil => intro x hx; cases hx
  | cons a t ih =>
    intro x hx
    cases t with
    | nil =>
      rcases List.mem_cons.mp hx with rfl | h2
      · simp
      · cases h2
    | cons b t2 =>
      rw [List.getLast?_cons_cons]
      have hpc := List.pairwise_cons.mp hp
      have ih2 := ih hpc.2
      rcases List.mem_cons.mp hx with rfl | hx2
      · have hb : x < b := hpc.1 b (List.mem_cons_self b t2)
        have hlast := ih2 b (List.mem_cons_self b t2)
        omega
      · exact ih2 x hx2

/-- Distinct ascending indices all lying between the first and last
element: there are at most `last + 1 - first` of them. -/
theorem length_le_span {l : List ℕ} (hp : l.Pairwise (· < ·))
    (hne : l ≠ []) :
    l.length ≤ l.getLast?.getD 0 + 1 - l.getD 0 0 := by
  have hnd : l.Nodup := hp.imp (fun h => Nat.ne_of_lt h)
  have hsub : l.toFinset ⊆ Finset.Icc (l.getD 0 0) (l.getLast?.getD 0) := by
    intro x hx
    rw [List.mem_toFinset] at hx
    rw [Finset.mem_Icc]
    exact ⟨getD_zero_le_of_mem hp hx, le_getLastD_of_mem hp x hx⟩
  have hc := Finset.card_le_card hsub
  rwa [List.toFinset_card_of_nodup hnd, Nat.card_Icc] at hc

/-- Pure arithmetic behind the interval loop: with a positive gap `g`
and `n` abutting segments `[h0 + i*g, h0 + (i+1)*g)` (the last extended
to `lastD + 1`), every segment is nonempty. -/
theorem segment_nonempty_pure (h0 lastD c n g : ℕ) (hn : 0 < n)
    (hg : 1 ≤ g) (hng : n * g ≤ c) (hspan : c ≤ lastD + 1 - h0)
    (hcpos : 1 ≤ c) :
    ∀ i < n, h0 + i * g < (if i = n - 1 then lastD + 1
      else h0 + i * g + g) := by
  intro i hi
  by_cases hieq : i = n - 1
  · rw [if_pos hieq]
    subst hieq
    have hsucc : (n - 1 + 1) * g = (n - 1) * g + g := Nat.succ_mul _ _
    rw [show n - 1 + 1 = n by omega] at hsucc
    omega
  · rw [if_neg hieq]
    omega

/-- Pure arithmetic behind the skip: the `n` segments cover
`[h0, lastD + 1)` disjointly, so an `index` between `h0` and `lastD`
lies in exactly one of them. -/
theorem segment_partition_point (h0 lastD c n g index : ℕ) (hn : 0 < n)
    (hg : 1 ≤ g) (hng : n * g ≤ c) (hspan : c ≤ lastD + 1 - h0)
    (hcpos : 1 ≤ c) (hlo : h0 ≤ index) (hhi : index ≤ lastD) :
    ∃ istar, istar < n ∧ ∀ i, i < n →
      ((h0 + i * g ≤ index ∧
        index < (if i = n - 1 then lastD + 1 else h0 + i * g + g)) ↔
       i = istar) := by
  have hgpos : 0 < g := hg
  by_cases hcase : index < h0 + (n - 1) * g
  · -- the skip happens strictly before the last segment
    have hqlt : (index - h0) / g < n - 1 := by
      rw [Nat.div_lt_iff_lt_mul hgpos]
      have := Nat.mul_comm (n - 1) g
      omega
    refine ⟨(index - h0) / g, by omega, ?_⟩
    intro i hi
    constructor
    · rintro ⟨hle, hlt⟩
      by_cases hieq : i = n - 1
      · subst hieq
        omega
      · rw [if_neg hieq] at hlt
        have h1 : i ≤ (index - h0) / g := by
          rw [Nat.le_div_iff_mul_le hgpos]
          omega
        have h2 : (index - h0) / g < i + 1 := by
          rw [Nat.div_lt_iff_lt_mul hgpos]
          have hsucc : (i + 1) * g = i * g + g := Nat.succ_mul _ _
          omega
        omega
    · rintro rfl
      have hne2 : (index - h0) / g ≠ n - 1 := by omega
      rw [if_neg hne2]
      have hq1 : (index - h0) / g * g ≤ index - h0 :=
        Nat.div_mul_le_self _ _
      have hq2 := Nat.div_add_mod (index - h0) g
      have hq3 := Nat.mod_lt (index - h0) hgpos
      have hcomm : g * ((index - h0) / g) = (index - h0) / g * g :=
        Nat.mul_comm _ _
      omega
  · -- the skip happens in the last (extended) segment
    refine ⟨n - 1, by omega, ?_⟩
    intro i hi
    constructor
    · rintro ⟨hle, hlt⟩
      by_contra hne2
      rw [if_neg hne2] at hlt
      have hi1 : i + 1 ≤ n - 1 := by omega
      have hmul : (i + 1) * g ≤ (n - 1) * g := Nat.mul_le_mul_right g hi1
      have hsucc : (i + 1) * g = i * g + g := Nat.succ_mul _ _
      omega
    · rintro rfl
      rw [if_pos rfl]
      omega

theorem getD_set_self {β : Type} (l : List β) (p : ℕ) (b d : β)
    (h : p < l.length) : (l.set p b).getD p d = b := by
  rw [List.getD_eq_getElem _ _ (by simpa using h)]
  exact List.getElem_set_self _

theorem getD_set_ne {β : Type} (l : List β) (p q : ℕ) (b d : β)
    (hne : p ≠ q) : (l.set p b).getD q d = l.getD q d := by
  by_cases h : q < l.length
  · rw [List.getD_eq_getElem _ _ (by simpa using h),
      List.getD_eq_getElem _ _ h]
    exact List.getElem_set_ne hne _
  · rw [List.getD_eq_default _ _ (by simpa using le_of_not_lt h),
      List.getD_eq_default _ _ (le_of_not_lt h)]

/-- Loop invariant of `CmapssNegativeSampler.sample`: both slot arrays
keep their allocated size and every slot strictly between position 1
and the write index has been filled. -/
def NegInv {α : Type} (total : ℕ) (st : NegState α) : Prop :=
  st.samples.length = total ∧ st.labels.length = total ∧
  ∀ p, 1 ≤ p → p < st.j →
    (st.samples.getD p none).isSome ∧ (st.labels.getD p none).isSome

/-- A run of the interval loop over segments none of which triggers the
skip: every segment draws one index and fills one slot, so the write
index advances by the number of segments. -/
theorem segLoop_fill {α : Type} [Inhabited α] (data : List α)
    (labels : List ℚ) (index : ℕ) (segDraw : ℕ → ℕ → ℕ)
    (anchor engine : ℕ) (idxs : List ℕ) (n total : ℕ) :
    ∀ (k i : ℕ) (st : NegState α),
      NegInv total st →
      st.j + k ≤ total →
      (∀ m, i ≤ m → m < i + k →
        ¬(segStart idxs n m ≤ index ∧ index < segStop idxs n m ∧
          engine = anchor) ∧
        segStart idxs n m < segStop idxs n m) →
      ∃ st2, segLoop data labels index segDraw anchor engine idxs n k i
          st = some st2 ∧
        NegInv total st2 ∧ st2.j = st.j + k := by
  intro k
  induction k with
  | zero =>
    intro i st hinv hroom hseg
    exact ⟨st, rfl, hinv, by omega⟩
  | succ k ih =>
    intro i st hinv hroom hseg
    obtain ⟨hs, hl, hfill⟩ := hinv
    have hm := hseg i (le_refl i) (by omega)
    have hjlt : st.j < st.samples.length := by omega
    have hjlt2 : st.j < st.labels.length := by omega
    let st1 : NegState α := ⟨st.samples.set st.j
        (some (data.getD (segDraw (segStart idxs n i)
          (segStop idxs n i)) default)),
      st.labels.set st.j
        (some (labels.getD (segDraw (segStart idxs n i)
          (segStop idxs n i)) 0)), st.j + 1⟩
    have hinv1 : NegInv total st1 := by
      refine ⟨by simpa using hs, by simpa using hl, ?_⟩
      intro p hp1 hp2
      have hp2j : p < st.j + 1 := hp2
      by_cases hpj : p = st.j
      · constructor
        · show ((st.samples.set st.j _).getD p none).isSome
          rw [hpj, getD_set_self _ _ _ _ hjlt]
          rfl
        · show ((st.labels.set st.j _).getD p none).isSome
          rw [hpj, getD_set_self _ _ _ _ hjlt2]
          rfl
      · have := hfill p hp1 (by omega)
        constructor
        · show ((st.samples.set st.j _).getD p none).isSome
          rw [getD_set_ne _ _ _ _ _ (by omega)]
          exact this.1
        · show ((st.labels.set st.j _).getD p none).isSome
          rw [getD_set_ne _ _ _ _ _ (by omega)]
          exact this.2
    have hj1 : st1.j = st.j + 1 := rfl
    obtain ⟨st2, hrun, hinv2, hj2⟩ := ih (i + 1) st1 hinv1
      (by rw [hj1]; omega)
      (fun m hm1 hm2 => hseg m (by omega) (by omega))
    refine ⟨st2, ?_, hinv2, by rw [hj2, hj1]; omega⟩
    have hstep : segStep data labels index segDraw anchor engine idxs n
        st i = some st1 := by
      simp only [segStep, pySet]
      rw [if_neg hm.1, if_pos hm.2, if_pos hjlt, if_pos hjlt2]
    rw [segLoop, hstep]
    exact hrun

/-- A run of the interval loop over segments exactly one of which
(`istar`) triggers the anchor skip: the skipped segment leaves the
write index alone, every other segment fills one slot. -/
theorem segLoop_fill_one_skip {α : Type} [Inhabited α] (data : List α)
    (labels : List ℚ) (index : ℕ) (segDraw : ℕ → ℕ → ℕ)
    (anchor engine : ℕ) (idxs : List ℕ) (n total : ℕ) :
    ∀ (k i istar : ℕ) (st : NegState α),
      NegInv total st →
      i ≤ istar → istar < i + k →
      st.j + k ≤ total + 1 →
      (∀ m, i ≤ m → m < i + k →
        ((segStart idxs n m ≤ index ∧ index < segStop idxs n m ∧
          engine = anchor) ↔ m = istar)) →
      (∀ m, i ≤ m → m < i + k → segStart idxs n m < segStop idxs n m) →
      ∃ st2, segLoop data labels index segDraw anchor engine idxs n k i
          st = some st2 ∧
        NegInv total st2 ∧ st2.j + 1 = st.j + k := by
  intro k
  induction k with
  | zero =>
    intro i istar st hinv h1 h2 hroom hchar hne
    omega
  | succ k ih =>
    intro i istar st hinv h1 h2 hroom hchar hne
    by_cases hii : i = istar
    · -- the first remaining segment is the skipped one
      have hskip : segStart idxs n i ≤ index ∧
          index < segStop idxs n i ∧ engine = anchor :=
        (hchar i (le_refl i) (by omega)).mpr hii
      have hstep : segStep data labels index segDraw anchor engine idxs n
          st i = some st := by
        rw [segStep, if_pos hskip]
      rw [segLoop, hstep]
      have hrest := segLoop_fill data labels index segDraw anchor engine
        idxs n total k (i + 1) st hinv (by omega) ?_
      · obtain ⟨st2, hrun, hinv2, hj2⟩ := hrest
        exact ⟨st2, hrun, hinv2, by omega⟩
      · intro m hm1 hm2
        refine ⟨?_, hne m (by omega) (by omega)⟩
        intro hcon
        have := (hchar m (by omega) (by omega)).mp hcon
        omega
    · -- the first remaining segment fills a slot
      obtain ⟨hs, hl, hfill⟩ := hinv
      have hnoskip : ¬(segStart idxs n i ≤ index ∧
          index < segStop idxs n i ∧ engine = anchor) := by
        intro hcon
        exact hii ((hchar i (le_refl i) (by omega)).mp hcon)
      have hk1 : 1 ≤ k := by omega
      have hjlt : st.j < st.samples.length := by omega
      have hjlt2 : st.j < st.labels.length := by omega
      let st1 : NegState α := ⟨st.samples.set st.j
          (some (data.getD (segDraw (segStart idxs n i)
            (segStop idxs n i)) default)),
        st.labels.set st.j
          (some (labels.getD (segDraw (segStart idxs n i)
            (segStop idxs n i)) 0)), st.j + 1⟩
      have hinv1 : NegInv total st1 := by
        refine ⟨by simpa using hs, by simpa using hl, ?_⟩
        intro p hp1 hp2
        have hp2j : p < st.j + 1 := hp2
        by_cases hpj : p = st.j
        · constructor
          · show ((st.samples.set st.j _).getD p none).isSome
            rw [hpj, getD_set_self _ _ _ _ hjlt]
            rfl
          · show ((st.labels.set st.j _).getD p none).isSome
            rw [hpj, getD_set_self _ _ _ _ hjlt2]
            rfl
        · have := hfill p hp1 (by omega)
          constructor
          · show ((st.samples.set st.j _).getD p none).isSome
            rw [getD_set_ne _ _ _ _ _ (by omega)]
            exact this.1
          · show ((st.labels.set st.j _).getD p none).isSome
            rw [getD_set_ne _ _ _ _ _ (by omega)]
            exact this.2
      have hj1 : st1.j = st.j + 1 := rfl
      obtain ⟨st2, hrun, hinv2, hj2⟩ := ih (i + 1) istar st1 hinv1
        (by omega) (by omega) (by rw [hj1]; omega)
        (fun m hm1 hm2 => hchar m (by omega) (by omega))
        (fun m hm1 hm2 => hne m (by omega) (by omega))
      refine ⟨st2, ?_, hinv2, by rw [hj1] at hj2; omega⟩
      have hstep : segStep data labels index segDraw anchor engine idxs n
          st i = some st1 := by
        simp only [segStep, pySet]
        rw [if_neg hnoskip, if_pos (hne i (le_refl i) (by omega)),
          if_pos hjlt, if_pos hjlt2]
      rw [segLoop, hstep]
      exact hrun

/-- With at least `interval_nums` samples for the engine, every segment
of its index range is a nonempty range. -/
theorem engine_seg_nonempty (ids : List ℕ) (e n : ℕ) (hn : 0 < n)
    (hcnt : n ≤ (argIdxs ids e).length) :
    ∀ i < n, segStart (argIdxs ids e) n i < segStop (argIdxs ids e) n i := by
  intro i hi
  have hp := argIdxs_pairwise ids e
  have hne : argIdxs ids e ≠ [] := by
    intro hnil
    rw [hnil] at hcnt
    simp at hcnt
    omega
  have hg : 1 ≤ (argIdxs ids e).length / n := (Nat.one_le_div_iff hn).mpr hcnt
  have hng : n * ((argIdxs ids e).length / n) ≤ (argIdxs ids e).length := by
    rw [Nat.mul_comm]
    exact Nat.div_mul_le_self _ _
  have hspan := length_le_span hp hne
  have hcpos : 1 ≤ (argIdxs ids e).length := by omega
  have := segment_nonempty_pure ((argIdxs ids e).getD 0 0)
    ((argIdxs ids e).getLast?.getD 0) (argIdxs ids e).length n
    ((argIdxs ids e).length / n) hn hg hng hspan hcpos i hi
  simpa [segStart, segStop] using this

/-- The anchor engine's segments contain `index` exactly once. -/
theorem engine_skip_point (ids : List ℕ) (e n index : ℕ) (hn : 0 < n)
    (hidx : index < ids.length) (hanch : ids.getD index 0 = e)
    (hcnt : n ≤ (argIdxs ids e).length) :
    ∃ istar, istar < n ∧ ∀ i, i < n →
      ((segStart (argIdxs ids e) n i ≤ index ∧
        index < segStop (argIdxs ids e) n i) ↔ i = istar) := by
  have hp := argIdxs_pairwise ids e
  have hne : argIdxs ids e ≠ [] := by
    intro hnil
    rw [hnil] at hcnt
    simp at hcnt
    omega
  have hg : 1 ≤ (argIdxs ids e).length / n := (Nat.one_le_div_iff hn).mpr hcnt
  have hng : n * ((argIdxs ids e).length / n) ≤ (argIdxs ids e).length := by
    rw [Nat.mul_comm]
    exact Nat.div_mul_le_self _ _
  have hspan := length_le_span hp hne
  have hcpos : 1 ≤ (argIdxs ids e).length := by omega
  have hmem : index ∈ argIdxs ids e := mem_argIdxs.mpr ⟨hidx, hanch⟩
  have hlo := getD_zero_le_of_mem hp hmem
  have hhi := le_getLastD_of_mem hp index hmem
  obtain ⟨istar, histar, hchar⟩ := segment_partition_point
    ((argIdxs ids e).getD 0 0) ((argIdxs ids e).getLast?.getD 0)
    (argIdxs ids e).length n ((argIdxs ids e).length / n) index hn hg hng
    hspan hcpos hlo hhi
  refine ⟨istar, histar, ?_⟩
  intro i hi
  have := hchar i hi
  simpa [segStart, segStop] using this

/-- Processing a non-anchor engine fills `interval_nums` slots. -/
theorem engineStep_fill {α : Type} [Inhabited α] (data : List α)
    (labels : List ℚ) (ids : List ℕ) (index : ℕ) (segDraw : ℕ → ℕ → ℕ)
    (anchor n total : ℕ) (st : NegState α) (e : ℕ)
    (hinv : NegInv total st) (hn : 0 < n)
    (hcnt : n ≤ (argIdxs ids e).length) (hne : e ≠ anchor)
    (hroom : st.j + n ≤ total) :
    ∃ st2, engineStep data labels ids index segDraw anchor n st e =
        some st2 ∧
      NegInv total st2 ∧ st2.j = st.j + n := by
  have hlnil : argIdxs ids e ≠ [] := by
    intro hnil
    rw [hnil] at hcnt
    simp at hcnt
    omega
  have hidne : (argIdxs ids e).isEmpty = false := by
    rw [List.isEmpty_eq_false]
    exact hlnil
  simp only [engineStep]
  rw [if_neg (by omega : ¬ n = 0), if_neg (by simp [hidne])]
  have := segLoop_fill data labels index segDraw anchor e
    (argIdxs ids e) n total n 0 st hinv (by omega) ?_
  · simpa using this
  · intro m hm1 hm2
    refine ⟨?_, engine_seg_nonempty ids e n hn hcnt m (by omega)⟩
    rintro ⟨-, -, hcon⟩
    exact hne hcon

/-- Processing the anchor engine fills `interval_nums - 1` slots: the
segment containing `index` is skipped. -/
theorem engineStep_anchor {α : Type} [Inhabited α] (data : List α)
    (labels : List ℚ) (ids : List ℕ) (index : ℕ) (segDraw : ℕ → ℕ → ℕ)
    (anchor n total : ℕ) (st : NegState α)
    (hinv : NegInv total st) (hn : 0 < n)
    (hidx : index < ids.length) (hanch : ids.getD index 0 = anchor)
    (hcnt : n ≤ (argIdxs ids anchor).length)
    (hroom : st.j + n ≤ total + 1) :
    ∃ st2, engineStep data labels ids index segDraw anchor n st anchor =
        some st2 ∧
      NegInv total st2 ∧ st2.j + 1 = st.j + n := by
  have hlnil : argIdxs ids anchor ≠ [] := by
    intro hnil
    rw [hnil] at hcnt
    simp at hcnt
    omega
  have hidne : (argIdxs ids anchor).isEmpty = false := by
    rw [List.isEmpty_eq_false]
    exact hlnil
  obtain ⟨istar, histar, hchar⟩ := engine_skip_point ids anchor n index hn
    hidx hanch hcnt
  simp only [engineStep]
  rw [if_neg (by omega : ¬ n = 0), if_neg (by simp [hidne])]
  have := segLoop_fill_one_skip data labels index segDraw anchor anchor
    (argIdxs ids anchor) n total n 0 istar st hinv (by omega) (by omega)
    (by omega) ?_ ?_
  · simpa using this
  · intro m hm1 hm2
    rw [← hchar m (by omega)]
    constructor
    · rintro ⟨h1, h2, -⟩
      exact ⟨h1, h2⟩
    · rintro ⟨h1, h2⟩
      exact ⟨h1, h2, rfl⟩
  · intro m hm1 hm2
    exact engine_seg_nonempty ids anchor n hn hcnt m (by omega)

/-- A run of the engine loop over distinct drawn engines, each with at
least `interval_nums` samples: every engine fills `interval_nums`
slots, except the anchor engine (if present) which fills one less. -/
theorem engineLoop_run {α : Type} [Inhabited α] (data : List α)
    (labels : List ℚ) (ids : List ℕ) (index : ℕ) (segDraw : ℕ → ℕ → ℕ)
    (anchor n total : ℕ) (hn : 0 < n)
    (hidx : index < ids.length) (hanch : ids.getD index 0 = anchor) :
    ∀ (es : List ℕ) (st : NegState α),
      NegInv total st → es.Nodup →
      (∀ e ∈ es, n ≤ (argIdxs ids e).length) →
      st.j + n * es.length ≤ total + (if anchor ∈ es then 1 else 0) →
      ∃ st2, engineLoop data labels ids index segDraw anchor n es st =
          some st2 ∧
        NegInv total st2 ∧
        st2.j + (if anchor ∈ es then 1 else 0) = st.j + n * es.length := by
  intro es
  induction es with
  | nil =>
    intro st hinv hnd hcnt hroom
    refine ⟨st, rfl, hinv, by simp⟩
  | cons e es ih =>
    intro st hinv hnd hcnt hroom
    have hndtail : es.Nodup := (List.nodup_cons.mp hnd).2
    have henotin : e ∉ es := (List.nodup_cons.mp hnd).1
    have hcnte := hcnt e (List.mem_cons_self e es)
    have hcnttail : ∀ x ∈ es, n ≤ (argIdxs ids x).length := fun x hx =>
      hcnt x (List.mem_cons_of_mem e hx)
    have hms : n * (e :: es).length = n * es.length + n := by
      rw [List.length_cons]
      exact Nat.mul_succ n es.length
    by_cases hea : e = anchor
    · have hmema : anchor ∈ e :: es := by
        rw [hea] at henotin ⊢
        exact List.mem_cons_self anchor es
      have hnotte : ¬ anchor ∈ es := by
        rw [hea] at henotin
        exact henotin
      rw [if_pos hmema, hms] at hroom
      rw [if_pos hmema, hms]
      obtain ⟨st1, hstep, hinv1, hj1⟩ := engineStep_anchor data labels ids
        index segDraw anchor n total st hinv hn hidx hanch
        (by rw [← hea]; exact hcnte) (by omega)
      obtain ⟨st2, hrun, hinv2, hj2⟩ := ih st1 hinv1 hndtail hcnttail
        (by rw [if_neg hnotte]; omega)
      rw [if_neg hnotte] at hj2
      refine ⟨st2, ?_, hinv2, by omega⟩
      rw [engineLoop, hea, hstep]
      exact hrun
    · have hiffcons : (anchor ∈ e :: es) ↔ (anchor ∈ es) := by
        rw [List.mem_cons]
        constructor
        · rintro (h | h)
          · exact absurd h.symm hea
          · exact h
        · exact Or.inr
      have hroomA : st.j + n ≤ total := by
        by_cases hmem : anchor ∈ es
        · rw [if_pos (hiffcons.mpr hmem), hms] at hroom
          have hlen1 : 1 ≤ es.length :=
            List.length_pos.mpr (List.ne_nil_of_mem hmem)
          have hnmul : n ≤ n * es.length :=
            Nat.le_mul_of_pos_right n (by omega)
          omega
        · rw [if_neg (fun h => hmem (hiffcons.mp h)), hms] at hroom
          omega
      obtain ⟨st1, hstep, hinv1, hj1⟩ := engineStep_fill data labels ids
        index segDraw anchor n total st e hinv hn hcnte hea hroomA
      have hroomB : st1.j + n * es.length ≤ total +
          (if anchor ∈ es then 1 else 0) := by
        by_cases hmem : anchor ∈ es
        · rw [if_pos hmem]
          rw [if_pos (hiffcons.mpr hmem), hms] at hroom
          omega
        · rw [if_neg hmem]
          rw [if_neg (fun h => hmem (hiffcons.mp h)), hms] at hroom
          omega
      obtain ⟨st2, hrun, hinv2, hj2⟩ := ih st1 hinv1 hndtail hcnttail hroomB
      refine ⟨st2, ?_, hinv2, ?_⟩
      · rw [engineLoop, hstep]
        exact hrun
      · by_cases hmem : anchor ∈ es
        · rw [if_pos (hiffcons.mpr hmem), hms]
          rw [if_pos hmem] at hj2
          omega
        · rw [if_neg (fun h => hmem (hiffcons.mp h)), hms]
          rw [if_neg hmem] at hj2
          omega

theorem all_isSome_of_filled {β : Type} (l : List (Option β))
    (h : ∀ p, p < l.length → (l.getD p none).isSome) :
    ∀ o ∈ l, o.isSome := by
  intro o ho
  rw [List.mem_iff_get] at ho
  obtain ⟨⟨p, hp⟩, rfl⟩ := ho
  have h2 := h p hp
  rw [List.getD_eq_getElem _ _ hp] at h2
  rw [List.get_eq_getElem]
  exact h2

theorem nodup_set_zero {l : List ℕ} {a : ℕ} (hnd : l.Nodup)
    (ha : a ∉ l) : (l.set 0 a).Nodup := by
  cases l with
  | nil => exact List.nodup_nil
  | cons b t =>
    rw [List.set_cons_zero]
    rw [List.nodup_cons] at hnd ⊢
    exact ⟨fun h => ha (List.mem_cons_of_mem b h), hnd.2⟩

/-- C8 (amended): whenever the anchor segment is skipped the write
index simply does not advance, and because the output is sized
`interval_nums * engine_num = 1 + (number of filled negatives)`, the
returned arrays contain no placeholder at all: position 0 holds the
anchor's own sample and label, and every other slot holds a drawn
negative.  Hypotheses: `index` in range, positive `interval_num` and
`engine_num`, a duplicate-free engine draw of the requested size, and
at least `interval_num` windows for every drawn engine and for the
anchor engine (so that no interval is an empty range). -/
theorem negative_sampler_no_placeholder {α : Type} [Inhabited α]
    (data : List α) (labels : List ℚ) (ids : List ℕ)
    (engine_num interval_num index : ℕ)
    (engineDraw : List ℕ) (segDraw : ℕ → ℕ → ℕ)
    (hidx : index < ids.length)
    (hn : 0 < interval_num) (hen : 0 < engine_num)
    (hdlen : engineDraw.length = engine_num)
    (hdnd : engineDraw.Nodup)
    (hcnt : ∀ e, (e ∈ engineDraw ∨ e = ids.getD index 0) →
      interval_num ≤ (argIdxs ids e).length) :
    ∃ s l, CmapssNegativeSampler.sample data labels ids engine_num
        interval_num index engineDraw segDraw = some (s, l) ∧
      s.length = interval_num * engine_num ∧
      l.length = interval_num * engine_num ∧
      (∀ o ∈ s, o.isSome) ∧ (∀ o ∈ l, o.isSome) ∧
      s.getD 0 none = some (data.getD index default) ∧
      l.getD 0 none = some (labels.getD index 0) := by
  have hdne : engineDraw ≠ [] := by
    intro hnil
    rw [hnil] at hdlen
    simp at hdlen
    omega
  have htotpos : 0 < interval_num * engine_num := Nat.mul_pos hn hen
  have hfin_len : (if ids.getD index 0 ∈ engineDraw then engineDraw
      else engineDraw.set 0 (ids.getD index 0)).length = engine_num := by
    by_cases hm : ids.getD index 0 ∈ engineDraw
    · rw [if_pos hm, hdlen]
    · rw [if_neg hm, List.length_set, hdlen]
  have hfin_nd : (if ids.getD index 0 ∈ engineDraw then engineDraw
      else engineDraw.set 0 (ids.getD index 0)).Nodup := by
    by_cases hm : ids.getD index 0 ∈ engineDraw
    · rw [if_pos hm]; exact hdnd
    · rw [if_neg hm]; exact nodup_set_zero hdnd hm
  have hfin_anchor : ids.getD index 0 ∈
      (if ids.getD index 0 ∈ engineDraw then engineDraw
        else engineDraw.set 0 (ids.getD index 0)) := by
    by_cases hm : ids.getD index 0 ∈ engineDraw
    · rw [if_pos hm]; exact hm
    · rw [if_neg hm]
      cases engineDraw with
      | nil => exact absurd rfl hdne
      | cons b t =>
        rw [List.set_cons_zero]
        exact List.mem_cons_self _ t
  have hfin_cnt : ∀ e ∈ (if ids.getD index 0 ∈ engineDraw then engineDraw
      else engineDraw.set 0 (ids.getD index 0)),
      interval_num ≤ (argIdxs ids e).length := by
    intro e he
    by_cases hm : ids.getD index 0 ∈ engineDraw
    · rw [if_pos hm] at he
      exact hcnt e (Or.inl he)
    · rw [if_neg hm] at he
      cases engineDraw with
      | nil => exact absurd rfl hdne
      | cons b t =>
        rw [List.set_cons_zero] at he
        rcases List.mem_cons.mp he with rfl | he2
        · exact hcnt _ (Or.inr rfl)
        · exact hcnt _ (Or.inl (List.mem_cons_of_mem b he2))
  have hinv0 : NegInv (α := α) (interval_num * engine_num)
      ⟨List.replicate (interval_num * engine_num) none,
       List.replicate (interval_num * engine_num) none, 1⟩ := by
    refine ⟨List.length_replicate _ _, List.length_replicate _ _, ?_⟩
    intro p hp1 hp2
    have hp2' : p < 1 := hp2
    omega
  have hroom0 : (1 : ℕ) + interval_num *
      (if ids.getD index 0 ∈ engineDraw then engineDraw
        else engineDraw.set 0 (ids.getD index 0)).length ≤
      interval_num * engine_num +
      (if ids.getD index 0 ∈
          (if ids.getD index 0 ∈ engineDraw then engineDraw
            else engineDraw.set 0 (ids.getD index 0)) then 1 else 0) := by
    rw [hfin_len, if_pos hfin_anchor]
    omega
  obtain ⟨st2, hrun, hinv2, hj2⟩ := engineLoop_run data labels ids index
    segDraw (ids.getD index 0) interval_num (interval_num * engine_num)
    hn hidx rfl
    (if ids.getD index 0 ∈ engineDraw then engineDraw
      else engineDraw.set 0 (ids.getD index 0))
    ⟨List.replicate (interval_num * engine_num) none,
     List.replicate (interval_num * engine_num) none, 1⟩
    hinv0 hfin_nd hfin_cnt hroom0
  have hstj : (NegState.mk (α := α)
      (List.replicate (interval_num * engine_num) none)
      (List.replicate (interval_num * engine_num) none) 1).j = 1 := rfl
  rw [if_pos hfin_anchor, hfin_len, hstj] at hj2
  have hjtot : st2.j = interval_num * engine_num := by omega
  obtain ⟨hs2len, hl2len, hfill2⟩ := hinv2
  have h0s : (0 : ℕ) < st2.samples.length := by omega
  have h0l : (0 : ℕ) < st2.labels.length := by omega
  refine ⟨st2.samples.set 0 (some (data.getD index default)),
    st2.labels.set 0 (some (labels.getD index 0)), ?_, ?_, ?_, ?_, ?_,
    ?_, ?_⟩
  · simp only [CmapssNegativeSampler.sample]
    rw [hrun]
    simp only [pySet]
    rw [if_pos h0s, if_pos h0l]
  · rw [List.length_set, hs2len]
  · rw [List.length_set, hl2len]
  · apply all_isSome_of_filled
    intro p hp
    by_cases hp0 : p = 0
    · rw [hp0, getD_set_self _ _ _ _ h0s]
      rfl
    · rw [getD_set_ne _ _ _ _ _ (fun h => hp0 h.symm)]
      have hplen : p < interval_num * engine_num := by
        rw [List.length_set, hs2len] at hp
        exact hp
      exact (hfill2 p (by omega) (by omega)).1
  · apply all_isSome_of_filled
    intro p hp
    by_cases hp0 : p = 0
    · rw [hp0, getD_set_self _ _ _ _ h0l]
      rfl
    · rw [getD_set_ne _ _ _ _ _ (fun h => hp0 h.symm)]
      have hplen : p < interval_num * engine_num := by
        rw [List.length_set, hl2len] at hp
        exact hp
      exact (hfill2 p (by omega) (by omega)).2
  · exact getD_set_self _ _ _ _ h0s
  · exact getD_set_self _ _ _ _ h0l

/-- Concrete instance of the amended C8: the counterexample scenario
satisfies all the hypotheses and returns four fully filled slots. -/
theorem negative_sampler_no_placeholder_witness :
    (∀ e, (e ∈ ([1] : List ℕ) ∨
        e = ([1, 1, 1, 1, 2, 2, 2, 2] : List ℕ).getD 0 0) →
      4 ≤ (argIdxs [1, 1, 1, 1, 2, 2, 2, 2] e).length) ∧
    (∃ s l, CmapssNegativeSampler.sample [(0:ℚ), 1, 2, 3, 4, 5, 6, 7]
        [0, 1, 2, 3, 4, 5, 6, 7] [1, 1, 1, 1, 2, 2, 2, 2] 1 4 0 [1]
        (fun a _ => a) = some (s, l) ∧
      s.length = 4 * 1 ∧ l.length = 4 * 1 ∧
      (∀ o ∈ s, o.isSome) ∧ (∀ o ∈ l, o.isSome) ∧
      s.getD 0 none =
        some (([(0:ℚ), 1, 2, 3, 4, 5, 6, 7]).getD 0 default) ∧
      l.getD 0 none = some (([(0:ℚ), 1, 2, 3, 4, 5, 6, 7]).getD 0 0)) := by
  have hcnt : ∀ e, (e ∈ ([1] : List ℕ) ∨
      e = ([1, 1, 1, 1, 2, 2, 2, 2] : List ℕ).getD 0 0) →
      4 ≤ (argIdxs [1, 1, 1, 1, 2, 2, 2, 2] e).length := by
    intro e he
    have he1 : e = 1 := by
      rcases he with h | h
      · simpa using h
      · simpa using h
    rw [he1]
    decide
  exact ⟨hcnt, negative_sampler_no_placeholder
    [(0:ℚ), 1, 2, 3, 4, 5, 6, 7] [0, 1, 2, 3, 4, 5, 6, 7]
    [1, 1, 1, 1, 2, 2, 2, 2] 1 4 0 [1] (fun a _ => a)
    (by decide) (by decide) (by decide) rfl (by decide) hcnt⟩

end DualMixer
